import Mathlib

/-!
Verification development for the diff engine of the `dd_merge` repository
(`crates/dd_git/src/diff/{parse.rs, inline.rs, split.rs}`).

Embedding conventions:
* Rust `&str` / `String` values are modelled as `List Char`; byte offsets into
  a string are modelled through `Char.utf8Size` sums (`utf8Len`), which is the
  UTF-8 byte length Rust exposes.
* Rust `u32` line counters are modelled as `Nat`; the parser only produces
  starting values below `2^32` (mirroring `str::parse::<u32>`), and the
  unbounded increments coincide with the Rust release semantics on every
  input whose line numbers stay below `2^32`.
* Fallible Rust code (`Result`) is modelled with `Except`.  The two parser
  loops whose termination is not structural (`parse_unified_diff`'s outer
  file loop and its hunk loop) are written with an explicit fuel parameter
  that returns `none` on exhaustion; termination of the Rust loops is the
  theorem that with fuel `length + 1` the `none` branch is unreachable.
-/

namespace DdMerge

/-- Rust `LineOrigin` from `diff/mod.rs`. -/
inductive LineOrigin where
  | Context
  | Addition
  | Deletion
deriving DecidableEq

/-- Rust `InlineSpan` from `diff/mod.rs`: byte offsets into a line's content. -/
structure InlineSpan where
  start : Nat
  «end» : Nat
deriving DecidableEq

/-- Rust `DiffLine` from `diff/mod.rs`. -/
structure DiffLine where
  origin : LineOrigin
  content : List Char
  old_line_no : Option Nat
  new_line_no : Option Nat
  change_spans : List InlineSpan
deriving DecidableEq

/-- Rust `Hunk` from `diff/mod.rs`. -/
structure Hunk where
  header : List Char
  old_start : Nat
  old_count : Nat
  new_start : Nat
  new_count : Nat
  lines : List DiffLine
deriving DecidableEq

/-- Rust `FileStatus` from `diff/mod.rs`. -/
inductive FileStatus where
  | Added
  | Deleted
  | Modified
  | Renamed
deriving DecidableEq

/-- Rust `FileDiff` from `diff/mod.rs`. -/
structure FileDiff where
  path : List Char
  old_path : Option (List Char)
  status : FileStatus
  hunks : List Hunk
deriving DecidableEq

/-- UTF-8 byte length of a character list (Rust `str::len`). -/
def utf8Len (cs : List Char) : Nat := (cs.map Char.utf8Size).sum

/-- Boolean string-prefix test, Rust `str::starts_with` / `strip_prefix` guard. -/
def isPref : List Char → List Char → Bool
  | [], _ => true
  | _ :: _, [] => false
  | p :: ps, c :: cs => if p = c then isPref ps cs else false

/-- Rust `str::split_inclusive('\n')`: pieces keep their terminating newline;
no empty trailing piece is produced. -/
def splitInclNl : List Char → List (List Char)
  | [] => []
  | c :: cs =>
    if c = '\n' then ['\n'] :: splitInclNl cs
    else
      match splitInclNl cs with
      | [] => [[c]]
      | l :: ls => (c :: l) :: ls

/-- The per-line map of Rust `str::lines`: strip one trailing `'\n'`, and a
`'\r'` just before it; a piece without a trailing newline is kept whole. -/
def stripEol (l : List Char) : List Char :=
  match l.reverse with
  | '\n' :: '\r' :: rest => rest.reverse
  | '\n' :: rest => rest.reverse
  | _ => l

/-- Rust `str::lines` as used by `parse_unified_diff`. -/
def rustLines (s : List Char) : List (List Char) :=
  (splitInclNl s).map stripEol

/-- Split at the first occurrence of `sep` (helper for `splitnCh`). -/
def breakCh (sep : Char) : List Char → List Char × List Char
  | [] => ([], [])
  | c :: cs =>
    if c = sep then ([], c :: cs)
    else
      let r := breakCh sep cs
      (c :: r.1, r.2)

/-- Rust `str::splitn(n, sep)` (char separator): at most `n` pieces, the last
piece is the unsplit remainder. -/
def splitnCh : Nat → Char → List Char → List (List Char)
  | 0, _, cs => [cs]
  | 1, _, cs => [cs]
  | n + 2, sep, cs =>
    match breakCh sep cs with
    | (pre, []) => [pre]
    | (pre, _ :: rest) => pre :: splitnCh (n + 1) sep rest

/-- Strip a prefix if present, else keep the string (`strip_prefix(..).unwrap_or(..)`). -/
def stripPrefOr (p l : List Char) : List Char :=
  if isPref p l then l.drop p.length else l

/-- Rust `parse_diff_header` from `diff/parse.rs`: extract the `b/` path of a
`diff --git a/X b/Y` line. -/
def parse_diff_header (line : List Char) : List Char × FileStatus :=
  match splitnCh 4 ' ' line with
  | [_, _, _, p3] => (stripPrefOr ("b/".data) p3, FileStatus.Modified)
  | _ => ("unknown".data, FileStatus.Modified)

/-- Rust `str::trim`: drop whitespace from both ends. -/
def trimS (l : List Char) : List Char :=
  ((l.dropWhile Char.isWhitespace).reverse.dropWhile Char.isWhitespace).reverse

/-- Accumulator for `splitWs` (current word being collected). -/
def splitWsAux (cur : List Char) : List Char → List (List Char)
  | [] => if cur = [] then [] else [cur]
  | c :: cs =>
    if c.isWhitespace then
      if cur = [] then splitWsAux [] cs else cur :: splitWsAux [] cs
    else splitWsAux (cur ++ [c]) cs

/-- Rust `str::split_whitespace`: maximal non-whitespace runs. -/
def splitWs (l : List Char) : List (List Char) := splitWsAux [] l

/-- Split on every occurrence of `sep`, keeping empty pieces (Rust `str::split(sep)`). -/
def splitAllCh (sep : Char) : List Char → List (List Char)
  | [] => [[]]
  | c :: cs =>
    if c = sep then [] :: splitAllCh sep cs
    else
      match splitAllCh sep cs with
      | [] => [[c]]
      | l :: ls => (c :: l) :: ls

/-- Numeric value of a decimal digit string. -/
def digitsVal (cs : List Char) : Nat := cs.foldl (fun a c => a * 10 + (c.toNat - 48)) 0

/-- Rust `str::parse::<u32>`: optional leading `'+'`, at least one ASCII digit,
value below `2^32`. -/
def parseU32 (s : List Char) : Option Nat :=
  let s2 := match s with
    | '+' :: rest => rest
    | _ => s
  if s2 = [] then none
  else if s2.all (fun c => c.isDigit) then
    let v := digitsVal s2
    if v < 4294967296 then some v else none
  else none

/-- Rust `parse_range` from `diff/parse.rs`: `start[,count]`, unparsable fields
default to 0, a missing count defaults to 1. -/
def parse_range (r : List Char) : Nat × Nat :=
  match splitAllCh ',' r with
  | [] => (0, 1)
  | p0 :: rest =>
    let s := (parseU32 p0).getD 0
    let c := match rest with
      | [] => 1
      | p1 :: _ => (parseU32 p1).getD 0
    (s, c)

/-- Rust `parse_hunk_header` from `diff/parse.rs`. -/
def parse_hunk_header (header : List Char) : Nat × Nat × Nat × Nat :=
  match splitWs (trimS header) with
  | _ :: p1 :: p2 :: _ =>
    let old := if isPref ("-".data) p1 then p1.drop 1 else p1
    let nw := if isPref ("+".data) p2 then p2.drop 1 else p2
    let oc := parse_range old
    let nc := parse_range nw
    (oc.1, oc.2, nc.1, nc.2)
  | _ => (0, 0, 0, 0)

/-- Body loop of Rust `parse_hunk`: classify one line at a time, keeping the
running `old_line` / `new_line` counters, until the next hunk or file header. -/
def parseHunkLines (oldL newL : Nat) : List (List Char) → List DiffLine × List (List Char)
  | [] => ([], [])
  | l :: ls =>
    if isPref ("@@".data) l || isPref ("diff --git".data) l then ([], l :: ls)
    else if isPref ("+".data) l then
      let r := parseHunkLines oldL (newL + 1) ls
      ({ origin := LineOrigin.Addition, content := l.drop 1, old_line_no := none,
         new_line_no := some newL, change_spans := [] } :: r.1, r.2)
    else if isPref ("-".data) l then
      let r := parseHunkLines (oldL + 1) newL ls
      ({ origin := LineOrigin.Deletion, content := l.drop 1, old_line_no := some oldL,
         new_line_no := none, change_spans := [] } :: r.1, r.2)
    else if isPref (" ".data) l then
      let r := parseHunkLines (oldL + 1) (newL + 1) ls
      ({ origin := LineOrigin.Context, content := l.drop 1, old_line_no := some oldL,
         new_line_no := some newL, change_spans := [] } :: r.1, r.2)
    else if isPref ("\\".data) l then parseHunkLines oldL newL ls
    else
      let r := parseHunkLines (oldL + 1) (newL + 1) ls
      ({ origin := LineOrigin.Context, content := l, old_line_no := some oldL,
         new_line_no := some newL, change_spans := [] } :: r.1, r.2)

/-- Rust `parse_hunk` from `diff/parse.rs`: consume the `@@` header line (an
empty iterator yields the default empty header) and then the hunk body. -/
def parse_hunk : List (List Char) → Hunk × List (List Char)
  | [] =>
    ({ header := [], old_start := 0, old_count := 0, new_start := 0, new_count := 0,
       lines := [] }, [])
  | hdr :: rest =>
    let q := parse_hunk_header hdr
    let r := parseHunkLines q.1 q.2.2.1 rest
    ({ header := hdr, old_start := q.1, old_count := q.2.1, new_start := q.2.2.1,
       new_count := q.2.2.2, lines := r.1 }, r.2)

/-- Extended-header loop of Rust `parse_unified_diff`: scan until `---`,
`diff --git` or `@@`, recording new/deleted/rename markers. -/
def parseExtHeaders : FileStatus → Option (List Char) → List (List Char) →
    FileStatus × Option (List Char) × List (List Char)
  | st, op, [] => (st, op, [])
  | st, op, l :: ls =>
    if isPref ("---".data) l || isPref ("diff --git".data) l || isPref ("@@".data) l then
      (st, op, l :: ls)
    else if isPref ("new file".data) l then parseExtHeaders FileStatus.Added op ls
    else if isPref ("deleted file".data) l then parseExtHeaders FileStatus.Deleted op ls
    else if isPref ("rename from ".data) l then
      parseExtHeaders FileStatus.Renamed (some (l.drop 12)) ls
    else if isPref ("rename to".data) l then parseExtHeaders FileStatus.Renamed op ls
    else parseExtHeaders st op ls

/-- Skip one line when it starts with the given marker (the `---` / `+++` skips). -/
def skipStart (p : String) : List (List Char) → List (List Char)
  | [] => []
  | l :: ls => if isPref p.data l then ls else l :: ls

/-- Hunk loop of Rust `parse_unified_diff`: gather `@@` hunks until the next
file header.  The fuel argument makes the non-structural loop total; fuel
exhaustion returns `none` and is proved unreachable for fuel `> length`. -/
def parseHunksAux : Nat → List (List Char) → Option (List Hunk × List (List Char))
  | 0, _ => none
  | _ + 1, [] => some ([], [])
  | fuel + 1, l :: ls =>
    if isPref ("diff --git".data) l then some ([], l :: ls)
    else if isPref ("@@".data) l then
      let r := parse_hunk (l :: ls)
      match parseHunksAux fuel r.2 with
      | none => none
      | some (hs, rest) => some (r.1 :: hs, rest)
    else parseHunksAux fuel ls

/-- Outer file loop of Rust `parse_unified_diff`, with the same fuel discipline
as `parseHunksAux`. -/
def parseFilesAux : Nat → List (List Char) → Option (List FileDiff)
  | 0, _ => none
  | _ + 1, [] => some []
  | fuel + 1, l :: ls =>
    if isPref ("diff --git".data) l then
      let ph := parse_diff_header l
      let eh := parseExtHeaders ph.2 none ls
      let r3 := skipStart "+++" (skipStart "---" eh.2.2)
      match parseHunksAux (r3.length + 1) r3 with
      | none => none
      | some (hunks, r4) =>
        match parseFilesAux fuel r4 with
        | none => none
        | some files =>
          some ({ path := ph.1, old_path := eh.2.1, status := eh.1, hunks := hunks } :: files)
    else parseFilesAux fuel ls

/-- Rust `parse_unified_diff` from `diff/parse.rs`.  The Rust function returns
`Result` but has no error branch; the model's only `error` case is fuel
exhaustion, proved unreachable. -/
def parse_unified_diff (input : List Char) : Except (List Char) (List FileDiff) :=
  let ls := rustLines input
  match parseFilesAux (ls.length + 1) ls with
  | some fs => Except.ok fs
  | none => Except.error ("diff parser ran out of fuel".data)

/-- A word-diff token: its byte offset in the source line and its characters.
Carrying offsets through tokenization is the memory-safe equivalent of the
source's pointer-arithmetic `byte_range_in` (spec §9). -/
abbrev Tok := Nat × List Char

/-- Accumulator for `tokenizeStr`: `run` is the current maximal same-class
character run starting at byte offset `start`, `w` its whitespace class. -/
def tokenizeAux (start : Nat) (w : Bool) (run : List Char) : List Char → List Tok
  | [] => [(start, run)]
  | c :: cs =>
    if c.isWhitespace = w then tokenizeAux start w (run ++ [c]) cs
    else (start, run) :: tokenizeAux (start + utf8Len run) c.isWhitespace [c] cs

/-- Modelled from the spec: the word tokenizer of the external `similar`
crate's `diff_words` (not part of this repository's sources).  Splits a line
into maximal runs of whitespace / non-whitespace characters, each paired with
its byte offset (spec §4.2: "tokenizing on word boundaries"). -/
def tokenizeStr : List Char → List Tok
  | [] => []
  | c :: cs => tokenizeAux 0 c.isWhitespace [c] cs

/-- Rust `similar::ChangeTag`. -/
inductive ChangeTag where
  | Delete
  | Insert
  | Equal
deriving DecidableEq

/-- One reported change: the tag and the token it covers (`Delete`/`Equal`
tokens live in the old line, `Insert` tokens in the new line). -/
abbrev Change := ChangeTag × Tok

/-- All tokens reported as deleted. -/
def deletes (ts : List Tok) : List Change := ts.map (fun t => (ChangeTag.Delete, t))

/-- All tokens reported as inserted. -/
def inserts (ts : List Tok) : List Change := ts.map (fun t => (ChangeTag.Insert, t))

/-- Number of tokens of `ts` with the given text. -/
def countTok (ts : List Tok) (w : List Char) : Nat :=
  (ts.filter (fun t => decide (t.2 = w))).length

/-- Matching pairs of positions of tokens whose text occurs exactly once in
both lists (the unique common tokens of patience diff). -/
def uniqueMatches (os ns : List Tok) : List (Nat × Nat) :=
  os.enum.filterMap fun p =>
    if countTok os p.2.2 = 1 ∧ countTok ns p.2.2 = 1 then
      match ns.findIdx? (fun t => decide (t.2 = p.2.2)) with
      | some j => some (p.1, j)
      | none => none
    else none

/-- Longest chain of match pairs strictly increasing in both coordinates
(fuel-structural longest-increasing-subsequence). -/
def lisAux : Nat → List (Nat × Nat) → List (Nat × Nat)
  | 0, _ => []
  | _ + 1, [] => []
  | fuel + 1, x :: xs =>
    let withX := x :: lisAux fuel (xs.filter fun y => decide (x.1 < y.1 ∧ x.2 < y.2))
    let without := lisAux fuel xs
    if withX.length < without.length then without else withX

/-- First anchor of the patience alignment: the head of the longest increasing
chain of unique common token matches. -/
def firstAnchor (os ns : List Tok) : Option (Nat × Nat) :=
  (lisAux (uniqueMatches os ns).length (uniqueMatches os ns)).head?

/-- Modelled from the spec: the patience word-diff of the external `similar`
crate (`TextDiff::configure().algorithm(Algorithm::Patience).diff_words`),
which is not part of this repository's sources.  Spec §4.2: strip equal
tokens, then anchor on unique common tokens via a longest increasing chain
and recurse around the anchor; a region with no unique common token is
reported wholesale as deletions followed by insertions.  The fuel argument
(`|os| + |ns| + 1` at every top-level call) makes the recursion structural.
`patStep` is the anchor-splitting step, abstracted over the recursive call. -/
def patStep (rec : List Tok → List Tok → List Change) (os ns : List Tok) : List Change :=
  match firstAnchor os ns with
  | none => deletes os ++ inserts ns
  | some (i, j) =>
    match os.drop i, ns.drop j with
    | a :: osR, _ :: nsR =>
      rec (os.take i) (ns.take j) ++ (ChangeTag.Equal, a) :: rec osR nsR
    | _, _ => deletes os ++ inserts ns

def pat : Nat → List Tok → List Tok → List Change
  | 0, os, ns => deletes os ++ inserts ns
  | fuel + 1, os, ns =>
    match os, ns with
    | o :: os2, n :: ns2 =>
      if o.2 = n.2 then (ChangeTag.Equal, o) :: pat fuel os2 ns2
      else patStep (fun a b => pat fuel a b) (o :: os2) (n :: ns2)
    | _, _ => patStep (fun a b => pat fuel a b) os ns

/-- Rust `word_diff` from `diff/inline.rs` (its call into `similar` replaced by
the spec-modelled `pat` above): one span per deleted token on the old side,
one span per inserted token on the new side, in report order. -/
def word_diff (old nw : List Char) : List InlineSpan × List InlineSpan :=
  let os := tokenizeStr old
  let ns := tokenizeStr nw
  let chs := pat (os.length + ns.length + 1) os ns
  (chs.filterMap fun c =>
      if c.1 = ChangeTag.Delete then some ⟨c.2.1, c.2.1 + utf8Len c.2.2⟩ else none,
   chs.filterMap fun c =>
      if c.1 = ChangeTag.Insert then some ⟨c.2.1, c.2.1 + utf8Len c.2.2⟩ else none)

/-- The paired deletion lines of a deletion/addition run pair: the first
`min` deletions receive the old-side spans of `word_diff`, the excess is kept
unchanged (`lines[del_idx].change_spans = del_spans` in `inline.rs`). -/
def pairDels : List DiffLine → List DiffLine → List DiffLine
  | [], _ => []
  | d :: ds, [] => d :: ds
  | d :: ds, a :: as2 =>
    { d with change_spans := (word_diff d.content a.content).1 } :: pairDels ds as2

/-- The paired addition lines: the first `min` additions receive the new-side
spans of `word_diff`, the excess is kept unchanged. -/
def pairAdds : List DiffLine → List DiffLine → List DiffLine
  | [], _ => []
  | a :: as2, [] => a :: as2
  | a :: as2, d :: ds =>
    { a with change_spans := (word_diff d.content a.content).2 } :: pairAdds as2 ds

/-- Emit a finished deletion run followed by its addition run, pairing them
index-by-index up to the shorter length (`inline.rs` lines 39-48; when either
run is empty both `pairDels` and `pairAdds` leave every line unchanged, which
is the `del_count == 0 || add_count == 0` skip of the Rust scan). -/
def flushInline (pd pa : List DiffLine) : List DiffLine := pairDels pd pa ++ pairAdds pa pd

/-- The per-hunk scan of Rust `compute_inline_changes`, written with explicit
run accumulators instead of index arithmetic: `pd` is the deletion run being
collected and `pa` the addition run immediately following it.  A context line
or a deletion after additions ends both runs exactly as the `while` scan over
`i` does in `inline.rs`. -/
def inlineGo (pd pa : List DiffLine) : List DiffLine → List DiffLine
  | [] => flushInline pd pa
  | l :: ls =>
    match l.origin with
    | LineOrigin.Context => flushInline pd pa ++ l :: inlineGo [] [] ls
    | LineOrigin.Deletion =>
      if pa.isEmpty then inlineGo (pd ++ [l]) [] ls
      else flushInline pd pa ++ inlineGo [l] [] ls
    | LineOrigin.Addition =>
      if pd.isEmpty && pa.isEmpty then l :: inlineGo [] [] ls
      else inlineGo pd (pa ++ [l]) ls

/-- One hunk's lines after the inline scan. -/
def inlineLines (ls : List DiffLine) : List DiffLine := inlineGo [] [] ls

/-- Rust `compute_inline_changes` from `diff/inline.rs`.  The Rust function
mutates the hunk slice in place; the model returns the updated hunk list. -/
def compute_inline_changes (hs : List Hunk) : List Hunk :=
  hs.map fun h => { h with lines := inlineLines h.lines }

/-- Rust `SplitRow` from `diff/split.rs` (the `Arc` sharing of the two sides
is dropped: rows hold the line values themselves). -/
structure SplitRow where
  left : Option DiffLine
  right : Option DiffLine
deriving DecidableEq

/-- The rows of one deletion/addition run pair: `min` paired rows, then the
excess deletions with `right = none`, then the excess additions with
`left = none` (`split.rs` lines 58-82). -/
def pairRows (ds as2 : List DiffLine) : List SplitRow :=
  let pairs := min ds.length as2.length
  ((ds.zip as2).map fun p => { left := some p.1, right := some p.2 }) ++
    ((ds.drop pairs).map fun d => { left := some d, right := none }) ++
    ((as2.drop pairs).map fun a => { left := none, right := some a })

/-- The scan of Rust `split_hunk_lines`, with the same run-accumulator
formulation as `inlineGo` (`split.rs` mirrors the scan of `inline.rs`). -/
def splitGo (pd pa : List DiffLine) : List DiffLine → List SplitRow
  | [] => pairRows pd pa
  | l :: ls =>
    match l.origin with
    | LineOrigin.Context =>
      pairRows pd pa ++ { left := some l, right := some l } :: splitGo [] [] ls
    | LineOrigin.Deletion =>
      if pa.isEmpty then splitGo (pd ++ [l]) [] ls
      else pairRows pd pa ++ splitGo [l] [] ls
    | LineOrigin.Addition =>
      if pd.isEmpty && pa.isEmpty then { left := none, right := some l } :: splitGo [] [] ls
      else splitGo pd (pa ++ [l]) ls

/-- Rust `split_hunk_lines` from `diff/split.rs`. -/
def split_hunk_lines (ls : List DiffLine) : List SplitRow := splitGo [] [] ls

/-- Concatenated text of a token list. -/
def joinToks (ts : List Tok) : List Char := (ts.map Prod.snd).flatten

/-- The tokens tile the text contiguously from byte offset `start`. -/
def tilesFrom : Nat → List Tok → Prop
  | _, [] => True
  | start, t :: ts => t.1 = start ∧ tilesFrom (start + utf8Len t.2) ts

/-- Byte offset `i` lands on a UTF-8 character boundary of `cs`: it is the
byte length of some character-level prefix. -/
def IsUtf8Boundary (cs : List Char) (i : Nat) : Prop :=
  ∃ pre post, cs = pre ++ post ∧ i = utf8Len pre

/-- Drop the characters covering the first `n` bytes (exact at boundaries). -/
def dropBytes : List Char → Nat → List Char
  | cs, 0 => cs
  | [], _ => []
  | c :: cs, n + 1 => dropBytes cs (n + 1 - c.utf8Size)

/-- Take the characters covering the first `n` bytes (exact at boundaries). -/
def takeBytes : List Char → Nat → List Char
  | _, 0 => []
  | [], _ => []
  | c :: cs, n + 1 => c :: takeBytes cs (n + 1 - c.utf8Size)

/-- Byte-range slice of a string, Rust `&s[a..b]` at valid boundaries. -/
def sliceBytes (cs : List Char) (a b : Nat) : List Char := takeBytes (dropBytes cs a) (b - a)

/-- A diff line with its `change_spans` erased (used to state that the inline
engine touches nothing but the spans). -/
def stripLine (l : DiffLine) : DiffLine := { l with change_spans := [] }

/-- A hunk with every line's `change_spans` erased. -/
def stripHunk (h : Hunk) : Hunk := { h with lines := h.lines.map stripLine }

/-- The unified-diff prefix character of a line origin. -/
def originChar : LineOrigin → Char
  | LineOrigin.Addition => '+'
  | LineOrigin.Deletion => '-'
  | LineOrigin.Context => ' '

/-- Reconstruct a hunk body line from a parsed diff line: origin prefix
followed by the content. -/
def reconLine (l : DiffLine) : List Char := originChar l.origin :: l.content

/-- A raw hunk body line carrying one of the recognized prefixes. -/
def goodBodyLine (l : List Char) : Prop :=
  isPref ("+".data) l = true ∨ isPref ("-".data) l = true ∨
    isPref (" ".data) l = true ∨ isPref ("\\".data) l = true

/-- The lines of the first hunk of the first file of a parse result
(convenience accessor for concrete counterexamples). -/
def firstHunkLines : Except (List Char) (List FileDiff) → List DiffLine
  | Except.ok (fd :: _) =>
    match fd.hunks with
    | h :: _ => h.lines
    | [] => []
  | _ => []

/-- Join a list of lines into raw input text, terminating each with `'\n'`. -/
def mkInput (ls : List (List Char)) : List Char := (ls.map (· ++ ['\n'])).flatten

/-- A bare diff line for concrete examples. -/
def mkLine (o : LineOrigin) (c : List Char) : DiffLine :=
  { origin := o, content := c, old_line_no := none, new_line_no := none, change_spans := [] }

/-- A one-hunk wrapper for concrete examples. -/
def exHunk (ls : List DiffLine) : Hunk :=
  { header := [], old_start := 1, old_count := 1, new_start := 1, new_count := 1, lines := ls }

/-- The hunk list pairing the deletion `"hello world"` with the addition
`"hello earth"`. -/
def exPairHunks : List Hunk :=
  [exHunk [mkLine LineOrigin.Deletion ("hello world".data),
           mkLine LineOrigin.Addition ("hello earth".data)]]

/-- A diff whose hunk declares different old and new start lines. -/
def c2Input : List Char :=
  ("diff --git a/f b/f\n@@ -1,3 +5,3 @@\n ctx\n-old\n+new\n").data

/-- A diff whose hunk body contains a line with no recognized prefix. -/
def c6Input : List Char :=
  ("diff --git a/f b/f\n@@ -1 +1 @@\nX\n").data

/-- The hunks of the first file of a parse result (convenience accessor for
concrete counterexamples). -/
def firstFileHunks : Except (List Char) (List FileDiff) → List Hunk
  | Except.ok (fd :: _) => fd.hunks
  | _ => []

/-! ### Parser termination (fuel adequacy) -/

theorem parseHunkLines_rest_len (ls : List (List Char)) : ∀ o n,
    ((parseHunkLines o n ls).2).length ≤ ls.length := by
  induction ls with
  | nil => intro o n; simp [parseHunkLines]
  | cons l ls ih =>
    intro o n
    simp only [parseHunkLines]
    split_ifs <;> simp <;> exact Nat.le_succ_of_le (ih _ _)

theorem parse_hunk_rest_len (hdr : List Char) (rest : List (List Char)) :
    ((parse_hunk (hdr :: rest)).2).length ≤ rest.length := by
  simpa [parse_hunk] using parseHunkLines_rest_len rest _ _

theorem parseExtHeaders_rest_len (ls : List (List Char)) : ∀ st op,
    ((parseExtHeaders st op ls).2.2).length ≤ ls.length := by
  induction ls with
  | nil => intro st op; simp [parseExtHeaders]
  | cons l ls ih =>
    intro st op
    simp only [parseExtHeaders]
    split_ifs <;> simp <;> exact Nat.le_succ_of_le (ih _ _)

theorem skipStart_len (p : String) (ls : List (List Char)) :
    (skipStart p ls).length ≤ ls.length := by
  cases ls with
  | nil => simp [skipStart]
  | cons l ls => simp only [skipStart]; split_ifs <;> simp

theorem parseHunksAux_some : ∀ (fuel : Nat) (ls : List (List Char)), ls.length < fuel →
    ∃ hs rest, parseHunksAux fuel ls = some (hs, rest) ∧ rest.length ≤ ls.length := by
  intro fuel
  induction fuel with
  | zero => intro ls h; omega
  | succ fuel ih =>
    intro ls h
    cases ls with
    | nil => exact ⟨[], [], rfl, Nat.le_refl _⟩
    | cons l ls =>
      simp only [parseHunksAux]
      split_ifs with h1 h2
      · exact ⟨[], l :: ls, rfl, Nat.le_refl _⟩
      · have hlen : ((parse_hunk (l :: ls)).2).length ≤ ls.length :=
          parse_hunk_rest_len l ls
        have hfuel : ((parse_hunk (l :: ls)).2).length < fuel := by
          simp at h; omega
        obtain ⟨hs, rest, heq, hle⟩ := ih _ hfuel
        refine ⟨(parse_hunk (l :: ls)).1 :: hs, rest, ?_, ?_⟩
        · simp [heq]
        · simp; omega
      · have hfuel : ls.length < fuel := by simp at h; omega
        obtain ⟨hs, rest, heq, hle⟩ := ih _ hfuel
        exact ⟨hs, rest, heq, by simp; omega⟩

theorem parseFilesAux_some : ∀ (fuel : Nat) (ls : List (List Char)), ls.length < fuel →
    ∃ fs, parseFilesAux fuel ls = some fs := by
  intro fuel
  induction fuel with
  | zero => intro ls h; omega
  | succ fuel ih =>
    intro ls h
    cases ls with
    | nil => exact ⟨[], rfl⟩
    | cons l ls =>
      simp only [parseFilesAux]
      split_ifs with h1
      · set r3 := skipStart "+++" (skipStart "---" (parseExtHeaders (parse_diff_header l).2 none ls).2.2) with hr3
        obtain ⟨hs, r4, heq, hle⟩ := parseHunksAux_some (r3.length + 1) r3 (Nat.lt_succ_self _)
        have hr4 : r4.length < fuel := by
          have e1 : r3.length ≤ ls.length := by
            calc r3.length ≤ (skipStart "---" (parseExtHeaders (parse_diff_header l).2 none ls).2.2).length :=
                  skipStart_len _ _
              _ ≤ ((parseExtHeaders (parse_diff_header l).2 none ls).2.2).length := skipStart_len _ _
              _ ≤ ls.length := parseExtHeaders_rest_len ls _ _
          simp at h; omega
        obtain ⟨files, heq2⟩ := ih _ hr4
        refine ⟨{ path := (parse_diff_header l).1,
                  old_path := (parseExtHeaders (parse_diff_header l).2 none ls).2.1,
                  status := (parseExtHeaders (parse_diff_header l).2 none ls).1,
                  hunks := hs } :: files, ?_⟩
        simp only [heq, heq2]
      · have hfuel : ls.length < fuel := by simp at h; omega
        obtain ⟨fs, heq⟩ := ih _ hfuel
        exact ⟨fs, heq⟩

/-- C1: for every input string `parse_unified_diff` terminates and returns
`Ok` (its error branch is never taken and it never panics), and on the empty
input it returns the empty list of `FileDiff`s. -/
theorem c1_parse_unified_diff_total :
    (∀ s : List Char, ∃ fs, parse_unified_diff s = Except.ok fs) ∧
    parse_unified_diff [] = Except.ok [] := by
  constructor
  · intro s
    obtain ⟨fs, heq⟩ := parseFilesAux_some ((rustLines s).length + 1) (rustLines s)
      (Nat.lt_succ_self _)
    exact ⟨fs, by simp [parse_unified_diff, heq]⟩
  · rfl

/-! ### Tokenizer and word-diff span validity -/

theorem utf8Len_append (a b : List Char) : utf8Len (a ++ b) = utf8Len a + utf8Len b := by
  simp [utf8Len]

theorem tokenizeAux_spec (cs : List Char) : ∀ start w run,
    tilesFrom start (tokenizeAux start w run cs) ∧
      joinToks (tokenizeAux start w run cs) = run ++ cs := by
  induction cs with
  | nil => intro start w run; exact ⟨⟨rfl, trivial⟩, by simp [joinToks, tokenizeAux]⟩
  | cons c cs ih =>
    intro start w run
    simp only [tokenizeAux]
    split_ifs with h
    · obtain ⟨h1, h2⟩ := ih start w (run ++ [c])
      exact ⟨h1, by simp [h2]⟩
    · obtain ⟨h1, h2⟩ := ih (start + utf8Len run) c.isWhitespace [c]
      refine ⟨⟨rfl, h1⟩, ?_⟩
      simp [joinToks] at h2 ⊢
      simp [h2]

theorem tilesFrom_factor (ts : List Tok) : ∀ (start : Nat) (pre0 : List Char),
    tilesFrom start ts → start = utf8Len pre0 → ∀ t ∈ ts,
      ∃ pre post, pre0 ++ joinToks ts = pre ++ t.2 ++ post ∧ t.1 = utf8Len pre := by
  induction ts with
  | nil => intro start pre0 _ _ t ht; exact absurd ht (List.not_mem_nil t)
  | cons u ts ih =>
    intro start pre0 htiles hstart t ht
    obtain ⟨hu, htiles'⟩ := htiles
    rcases List.mem_cons.mp ht with h | h
    · subst h
      refine ⟨pre0, joinToks ts, ?_, by rw [hu, hstart]⟩
      simp [joinToks]
    · obtain ⟨pre, post, heq, hoff⟩ :=
        ih (start + utf8Len u.2) (pre0 ++ u.2) htiles'
          (by rw [utf8Len_append, hstart]) t h
      refine ⟨pre, post, ?_, hoff⟩
      have : pre0 ++ joinToks (u :: ts) = (pre0 ++ u.2) ++ joinToks ts := by
        simp [joinToks]
      rw [this, heq]

theorem tokenizeStr_factor (cs : List Char) (t : Tok) (ht : t ∈ tokenizeStr cs) :
    ∃ pre post, cs = pre ++ t.2 ++ post ∧ t.1 = utf8Len pre := by
  cases cs with
  | nil => exact absurd ht (List.not_mem_nil t)
  | cons c cs =>
    obtain ⟨h1, h2⟩ := tokenizeAux_spec cs 0 c.isWhitespace [c]
    have := tilesFrom_factor _ 0 [] h1 (by simp [utf8Len]) t ht
    rwa [show ([] : List Char) ++ joinToks (tokenizeAux 0 c.isWhitespace [c] cs) = c :: cs by
      simp [h2]] at this

theorem lisAux_subset : ∀ (fuel : Nat) (xs : List (Nat × Nat)) (y : Nat × Nat),
    y ∈ lisAux fuel xs → y ∈ xs := by
  intro fuel
  induction fuel with
  | zero => intro xs y h; exact absurd h (List.not_mem_nil y)
  | succ fuel ih =>
    intro xs y h
    cases xs with
    | nil => exact absurd h (List.not_mem_nil y)
    | cons x xs =>
      simp only [lisAux] at h
      split_ifs at h
      · exact List.mem_cons_of_mem x (ih xs y h)
      · rcases List.mem_cons.mp h with h | h
        · exact h ▸ List.mem_cons_self x xs
        · exact List.mem_cons_of_mem x (List.mem_of_mem_filter (ih _ y h))

theorem deletes_mem {ts : List Tok} {c : Change} (h : c ∈ deletes ts) :
    c.1 = ChangeTag.Delete ∧ c.2 ∈ ts := by
  simp only [deletes, List.mem_map] at h
  obtain ⟨t, ht, rfl⟩ := h
  exact ⟨rfl, ht⟩

theorem inserts_mem {ts : List Tok} {c : Change} (h : c ∈ inserts ts) :
    c.1 = ChangeTag.Insert ∧ c.2 ∈ ts := by
  simp only [inserts, List.mem_map] at h
  obtain ⟨t, ht, rfl⟩ := h
  exact ⟨rfl, ht⟩

theorem delins_mem {os ns : List Tok} {c : Change} (h : c ∈ deletes os ++ inserts ns) :
    (c.1 = ChangeTag.Delete → c.2 ∈ os) ∧ (c.1 = ChangeTag.Insert → c.2 ∈ ns) := by
  rcases List.mem_append.mp h with h | h
  · obtain ⟨ht, hm⟩ := deletes_mem h
    exact ⟨fun _ => hm, fun hi => by rw [ht] at hi; exact absurd hi (by decide)⟩
  · obtain ⟨ht, hm⟩ := inserts_mem h
    exact ⟨fun hd => by rw [ht] at hd; exact absurd hd (by decide), fun _ => hm⟩

theorem patStep_mem (rec : List Tok → List Tok → List Change) (os ns : List Tok)
    (hrec : ∀ os2 ns2 c, c ∈ rec os2 ns2 →
      (c.1 = ChangeTag.Delete → c.2 ∈ os2) ∧ (c.1 = ChangeTag.Insert → c.2 ∈ ns2)) :
    ∀ c ∈ patStep rec os ns,
      (c.1 = ChangeTag.Delete → c.2 ∈ os) ∧ (c.1 = ChangeTag.Insert → c.2 ∈ ns) := by
  intro c hc
  rcases hfa : firstAnchor os ns with _ | ⟨i, j⟩ <;>
    simp only [patStep, hfa] at hc
  · exact delins_mem hc
  · rcases hdo : os.drop i with _ | ⟨a, osR⟩ <;> rcases hdn : ns.drop j with _ | ⟨b, nsR⟩ <;>
      simp only [hdo, hdn] at hc
    · exact delins_mem hc
    · exact delins_mem hc
    · exact delins_mem hc
    · rcases List.mem_append.mp hc with h | h
      · obtain ⟨hd1, hd2⟩ := hrec _ _ c h
        exact ⟨fun hd => List.take_subset i os (hd1 hd), fun hi => List.take_subset j ns (hd2 hi)⟩
      · rcases List.mem_cons.mp h with h | h
        · subst h
          exact ⟨fun hd => by simp at hd, fun hi => by simp at hi⟩
        · obtain ⟨hd1, hd2⟩ := hrec _ _ c h
          constructor
          · intro hd
            have hm : c.2 ∈ os.drop i := by rw [hdo]; exact List.mem_cons_of_mem a (hd1 hd)
            exact List.drop_subset i os hm
          · intro hi
            have hm : c.2 ∈ ns.drop j := by rw [hdn]; exact List.mem_cons_of_mem b (hd2 hi)
            exact List.drop_subset j ns hm

theorem pat_mem : ∀ (fuel : Nat) (os ns : List Tok) (c : Change), c ∈ pat fuel os ns →
    (c.1 = ChangeTag.Delete → c.2 ∈ os) ∧ (c.1 = ChangeTag.Insert → c.2 ∈ ns) := by
  intro fuel
  induction fuel with
  | zero => intro os ns c hc; exact delins_mem hc
  | succ fuel ih =>
    intro os ns c hc
    match os, ns with
    | o :: os2, n :: ns2 =>
      simp only [pat] at hc
      split_ifs at hc with heq
      · rcases List.mem_cons.mp hc with h | h
        · subst h
          exact ⟨fun hd => by simp at hd, fun hi => by simp at hi⟩
        · obtain ⟨h1, h2⟩ := ih os2 ns2 c h
          exact ⟨fun hd => List.mem_cons_of_mem o (h1 hd),
            fun hi => List.mem_cons_of_mem n (h2 hi)⟩
      · exact patStep_mem _ _ _ (fun a b d hd => ih a b d hd) c hc
    | [], n :: ns2 =>
      simp only [pat] at hc
      exact patStep_mem _ _ _ (fun a b d hd => ih a b d hd) c hc
    | o :: os2, [] =>
      simp only [pat] at hc
      exact patStep_mem _ _ _ (fun a b d hd => ih a b d hd) c hc
    | [], [] =>
      simp only [pat] at hc
      exact patStep_mem _ _ _ (fun a b d hd => ih a b d hd) c hc

theorem word_diff_old_mem (old nw : List Char) (s : InlineSpan)
    (hs : s ∈ (word_diff old nw).1) :
    ∃ t ∈ tokenizeStr old, s.start = t.1 ∧ s.«end» = t.1 + utf8Len t.2 := by
  simp only [word_diff, List.mem_filterMap] at hs
  obtain ⟨c, hc, hsome⟩ := hs
  by_cases ht : c.1 = ChangeTag.Delete
  · rw [if_pos ht] at hsome
    obtain ⟨h1, _⟩ := pat_mem _ _ _ c hc
    obtain rfl := Option.some.inj hsome
    exact ⟨c.2, h1 ht, rfl, rfl⟩
  · rw [if_neg ht] at hsome
    exact absurd hsome (by simp)

theorem word_diff_new_mem (old nw : List Char) (s : InlineSpan)
    (hs : s ∈ (word_diff old nw).2) :
    ∃ t ∈ tokenizeStr nw, s.start = t.1 ∧ s.«end» = t.1 + utf8Len t.2 := by
  simp only [word_diff, List.mem_filterMap] at hs
  obtain ⟨c, hc, hsome⟩ := hs
  by_cases ht : c.1 = ChangeTag.Insert
  · rw [if_pos ht] at hsome
    obtain ⟨_, h2⟩ := pat_mem _ _ _ c hc
    obtain rfl := Option.some.inj hsome
    exact ⟨c.2, h2 ht, rfl, rfl⟩
  · rw [if_neg ht] at hsome
    exact absurd hsome (by simp)

/-- Validity of a span built from a token of `cs`. -/
theorem span_valid_of_tok (cs : List Char) (t : Tok) (ht : t ∈ tokenizeStr cs) :
    t.1 ≤ t.1 + utf8Len t.2 ∧ t.1 + utf8Len t.2 ≤ utf8Len cs ∧
      IsUtf8Boundary cs t.1 ∧ IsUtf8Boundary cs (t.1 + utf8Len t.2) := by
  obtain ⟨pre, post, heq, hoff⟩ := tokenizeStr_factor cs t ht
  refine ⟨Nat.le_add_right _ _, ?_, ⟨pre, t.2 ++ post, by simp [heq], hoff⟩,
    ⟨pre ++ t.2, post, by simp [heq], by rw [utf8Len_append, hoff]⟩⟩
  rw [heq, utf8Len_append, utf8Len_append, hoff]
  omega

theorem word_diff_old_valid (old nw : List Char) (s : InlineSpan)
    (hs : s ∈ (word_diff old nw).1) :
    s.start ≤ s.«end» ∧ s.«end» ≤ utf8Len old ∧
      IsUtf8Boundary old s.start ∧ IsUtf8Boundary old s.«end» := by
  obtain ⟨t, ht, h1, h2⟩ := word_diff_old_mem old nw s hs
  obtain ⟨v1, v2, v3, v4⟩ := span_valid_of_tok old t ht
  exact ⟨by rw [h1, h2]; exact v1, by rw [h2]; exact v2, by rw [h1]; exact v3,
    by rw [h2]; exact v4⟩

theorem word_diff_new_valid (old nw : List Char) (s : InlineSpan)
    (hs : s ∈ (word_diff old nw).2) :
    s.start ≤ s.«end» ∧ s.«end» ≤ utf8Len nw ∧
      IsUtf8Boundary nw s.start ∧ IsUtf8Boundary nw s.«end» := by
  obtain ⟨t, ht, h1, h2⟩ := word_diff_new_mem old nw s hs
  obtain ⟨v1, v2, v3, v4⟩ := span_valid_of_tok nw t ht
  exact ⟨by rw [h1, h2]; exact v1, by rw [h2]; exact v2, by rw [h1]; exact v3,
    by rw [h2]; exact v4⟩

theorem pat_refl : ∀ (os : List Tok) (fuel : Nat), os.length ≤ fuel →
    pat fuel os os = os.map (fun t => (ChangeTag.Equal, t)) := by
  intro os
  induction os with
  | nil =>
    intro fuel _
    cases fuel with
    | zero => rfl
    | succ fuel => rfl
  | cons t os ih =>
    intro fuel hf
    cases fuel with
    | zero => simp at hf
    | succ fuel =>
      simp only [pat, List.map_cons, eq_self_iff_true, if_true]
      rw [ih fuel (by simpa using hf)]

theorem word_diff_refl (c : List Char) : word_diff c c = ([], []) := by
  simp only [word_diff]
  rw [pat_refl _ _ (by omega)]
  simp [List.filterMap_map]

/-! ### Inline engine characterization -/

theorem pairDels_nil_right (ds : List DiffLine) : pairDels ds [] = ds := by
  cases ds <;> rfl

theorem pairAdds_nil_right (as2 : List DiffLine) : pairAdds as2 [] = as2 := by
  cases as2 <;> rfl

theorem pairDels_strip (ds : List DiffLine) : ∀ as2,
    (pairDels ds as2).map stripLine = ds.map stripLine := by
  induction ds with
  | nil => intro as2; rfl
  | cons d ds ih =>
    intro as2
    cases as2 with
    | nil => rfl
    | cons a as2 => simp [pairDels, stripLine, ih]

theorem pairAdds_strip (as2 : List DiffLine) : ∀ ds,
    (pairAdds as2 ds).map stripLine = as2.map stripLine := by
  induction as2 with
  | nil => intro ds; rfl
  | cons a as2 ih =>
    intro ds
    cases ds with
    | nil => rfl
    | cons d ds => simp [pairAdds, stripLine, ih]

theorem flushInline_strip (pd pa : List DiffLine) :
    (flushInline pd pa).map stripLine = (pd ++ pa).map stripLine := by
  simp [flushInline, pairDels_strip, pairAdds_strip]

theorem inlineGo_strip : ∀ (ls pd pa : List DiffLine),
    (inlineGo pd pa ls).map stripLine = (pd ++ pa ++ ls).map stripLine := by
  intro ls
  induction ls with
  | nil => intro pd pa; simp [inlineGo, flushInline_strip]
  | cons l ls ih =>
    intro pd pa
    rcases ho : l.origin with _ | _ | _ <;> simp only [inlineGo, ho]
    · simp [flushInline_strip, ih]
    · split_ifs with h
      · simp only [Bool.and_eq_true, List.isEmpty_iff] at h
        obtain ⟨hpd, hpa⟩ := h
        subst hpd
        subst hpa
        simp [ih]
      · simp [ih]
    · split_ifs with h
      · have hpa : pa = [] := List.isEmpty_iff.mp h
        subst hpa
        simp [ih]
      · simp [flushInline_strip, ih]

theorem pairDels_origins (ds : List DiffLine) : ∀ as2,
    (pairDels ds as2).map DiffLine.origin = ds.map DiffLine.origin := by
  induction ds with
  | nil => intro as2; rfl
  | cons d ds ih =>
    intro as2
    cases as2 with
    | nil => rfl
    | cons a as2 => simp [pairDels, ih]

theorem pairAdds_origins (as2 : List DiffLine) : ∀ ds,
    (pairAdds as2 ds).map DiffLine.origin = as2.map DiffLine.origin := by
  induction as2 with
  | nil => intro ds; rfl
  | cons a as2 ih =>
    intro ds
    cases ds with
    | nil => rfl
    | cons d ds => simp [pairAdds, ih]

theorem inlineGo_origins (ls pd pa : List DiffLine) :
    (inlineGo pd pa ls).map DiffLine.origin = (pd ++ pa ++ ls).map DiffLine.origin := by
  have h := congrArg (List.map (fun l => l.origin)) (inlineGo_strip ls pd pa)
  simpa [List.map_map, Function.comp, stripLine] using h

theorem inlineGo_dels : ∀ (ds : List DiffLine), (∀ d ∈ ds, d.origin = LineOrigin.Deletion) →
    ∀ pd ls, inlineGo pd [] (ds ++ ls) = inlineGo (pd ++ ds) [] ls := by
  intro ds
  induction ds with
  | nil => intro _ pd ls; simp
  | cons d ds ih =>
    intro hall pd ls
    have hd : d.origin = LineOrigin.Deletion := hall d (List.mem_cons_self d ds)
    have step : inlineGo pd [] ((d :: ds) ++ ls) = inlineGo (pd ++ [d]) [] (ds ++ ls) := by
      simp [inlineGo, hd]
    rw [step, ih (fun x hx => hall x (List.mem_cons_of_mem d hx)) (pd ++ [d]) ls]
    simp

theorem inlineGo_adds_flush : ∀ (as2 : List DiffLine),
    (∀ a ∈ as2, a.origin = LineOrigin.Addition) →
    ∀ pd pa ls, pd ≠ [] →
    (∀ x, ls.head? = some x → x.origin ≠ LineOrigin.Addition ∧
      (pa ++ as2 = [] → x.origin ≠ LineOrigin.Deletion)) →
    inlineGo pd pa (as2 ++ ls) = flushInline pd (pa ++ as2) ++ inlineGo [] [] ls := by
  intro as2
  induction as2 with
  | nil =>
    intro _ pd pa ls hpd hbound
    cases ls with
    | nil => simp [inlineGo, flushInline, pairDels, pairAdds]
    | cons x ls =>
      obtain ⟨hxa, hxd⟩ := hbound x rfl
      rcases ho : x.origin with _ | _ | _
      · simp [inlineGo, ho, flushInline, pairDels, pairAdds]
      · exact absurd ho hxa
      · by_cases hpa : pa = []
        · exact absurd ho (hxd (by simp [hpa]))
        · have step : inlineGo pd pa (x :: ls) =
              flushInline pd pa ++ inlineGo [x] [] ls := by
            simp [inlineGo, ho, List.isEmpty_iff, hpa]
          have step2 : inlineGo [] [] (x :: ls) = inlineGo [x] [] ls := by
            simp [inlineGo, ho]
          simp only [List.append_nil, List.nil_append]
          rw [step, step2]
  | cons a as2 ih =>
    intro hall pd pa ls hpd hbound
    have ha : a.origin = LineOrigin.Addition := hall a (List.mem_cons_self a as2)
    have step : inlineGo pd pa ((a :: as2) ++ ls) =
        inlineGo pd (pa ++ [a]) (as2 ++ ls) := by
      simp [inlineGo, ha, List.isEmpty_iff, hpd]
    rw [step, ih (fun x hx => hall x (List.mem_cons_of_mem a hx)) pd (pa ++ [a]) ls hpd
      (fun x hx => ⟨(hbound x hx).1, fun hemp => by simp at hemp⟩)]
    simp

theorem inlineLines_context (l : DiffLine) (ls : List DiffLine)
    (h : l.origin = LineOrigin.Context) :
    inlineLines (l :: ls) = l :: inlineLines ls := by
  simp [inlineLines, inlineGo, h, flushInline, pairDels, pairAdds]

theorem inlineLines_addition (l : DiffLine) (ls : List DiffLine)
    (h : l.origin = LineOrigin.Addition) :
    inlineLines (l :: ls) = l :: inlineLines ls := by
  simp [inlineLines, inlineGo, h]

theorem inlineLines_run (ds as2 ls : List DiffLine) (hne : ds ≠ [])
    (hds : ∀ d ∈ ds, d.origin = LineOrigin.Deletion)
    (has : ∀ a ∈ as2, a.origin = LineOrigin.Addition)
    (hbound : ∀ x, ls.head? = some x → x.origin ≠ LineOrigin.Addition ∧
      (as2 = [] → x.origin ≠ LineOrigin.Deletion)) :
    inlineLines (ds ++ as2 ++ ls) =
      pairDels ds as2 ++ pairAdds as2 ds ++ inlineLines ls := by
  cases ds with
  | nil => exact absurd rfl hne
  | cons d ds =>
    have hd : d.origin = LineOrigin.Deletion := hds d (List.mem_cons_self d ds)
    have step1 : inlineLines ((d :: ds) ++ as2 ++ ls) =
        inlineGo [d] [] (ds ++ (as2 ++ ls)) := by
      simp [inlineLines, inlineGo, hd]
    rw [step1, inlineGo_dels ds (fun x hx => hds x (List.mem_cons_of_mem d hx)) [d] (as2 ++ ls),
      inlineGo_adds_flush as2 has ([d] ++ ds) [] ls (by simp)
        (fun x hx => ⟨(hbound x hx).1, fun hemp => (hbound x hx).2 (by simpa using hemp)⟩)]
    simp [flushInline, inlineLines]

theorem pairDels_idem (ds : List DiffLine) : ∀ as2,
    pairDels (pairDels ds as2) (pairAdds as2 ds) = pairDels ds as2 := by
  induction ds with
  | nil => intro as2; cases as2 <;> rfl
  | cons d ds ih =>
    intro as2
    cases as2 with
    | nil => simp [pairDels_nil_right, pairAdds]
    | cons a as2 => simp [pairDels, pairAdds, ih]

theorem pairAdds_idem (as2 : List DiffLine) : ∀ ds,
    pairAdds (pairAdds as2 ds) (pairDels ds as2) = pairAdds as2 ds := by
  induction as2 with
  | nil => intro ds; cases ds <;> rfl
  | cons a as2 ih =>
    intro ds
    cases ds with
    | nil => simp [pairAdds_nil_right, pairDels]
    | cons d ds => simp [pairAdds, pairDels, ih]

theorem pairDels_length (ds : List DiffLine) : ∀ as2,
    (pairDels ds as2).length = ds.length := by
  have h := pairDels_strip ds
  intro as2
  have := congrArg List.length (h as2)
  simpa using this

theorem pairAdds_length (as2 : List DiffLine) : ∀ ds,
    (pairAdds as2 ds).length = as2.length := by
  have h := pairAdds_strip as2
  intro ds
  have := congrArg List.length (h ds)
  simpa using this

theorem dropWhile_head_not {α : Type} (p : α → Bool) : ∀ (l : List α) (x : α),
    (l.dropWhile p).head? = some x → p x = false := by
  intro l
  induction l with
  | nil => intro x h; simp [List.dropWhile] at h
  | cons a l ih =>
    intro x h
    by_cases hp : p a
    · rw [List.dropWhile_cons_of_pos hp] at h
      exact ih x h
    · rw [List.dropWhile_cons_of_neg hp] at h
      simp at h
      subst h
      exact Bool.eq_false_iff.mpr hp

theorem dropWhile_of_takeWhile_nil {α : Type} (p : α → Bool) (l : List α)
    (h : l.takeWhile p = []) : l.dropWhile p = l := by
  cases l with
  | nil => rfl
  | cons a l =>
    by_cases hp : p a
    · rw [List.takeWhile_cons_of_pos hp] at h
      exact absurd h (by simp)
    · exact List.dropWhile_cons_of_neg hp

theorem all_origin_of_map_eq {xs ys : List DiffLine} {o : LineOrigin}
    (hmap : xs.map DiffLine.origin = ys.map DiffLine.origin)
    (hall : ∀ y ∈ ys, y.origin = o) : ∀ x ∈ xs, x.origin = o := by
  intro x hx
  have hmem : x.origin ∈ ys.map DiffLine.origin := by
    rw [← hmap]; exact List.mem_map_of_mem DiffLine.origin hx
  obtain ⟨y, hy, hyo⟩ := List.mem_map.mp hmem
  rw [← hyo]
  exact hall y hy

theorem inlineLines_head_origin (rest : List DiffLine) (x : DiffLine)
    (hx : (inlineLines rest).head? = some x) :
    ∃ y, rest.head? = some y ∧ y.origin = x.origin := by
  have h : (inlineLines rest).map DiffLine.origin = rest.map DiffLine.origin := by
    simpa [inlineLines] using inlineGo_origins rest [] []
  have hh := congrArg List.head? h
  rw [List.head?_map, List.head?_map, hx] at hh
  cases hy : rest.head? with
  | none => rw [hy] at hh; simp at hh
  | some y =>
    rw [hy] at hh
    simp at hh
    exact ⟨y, rfl, hh.symm⟩

theorem inlineLines_idem_aux : ∀ (n : Nat) (ls : List DiffLine), ls.length ≤ n →
    inlineLines (inlineLines ls) = inlineLines ls := by
  intro n
  induction n with
  | zero =>
    intro ls h
    have : ls = [] := List.eq_nil_of_length_eq_zero (Nat.le_zero.mp h)
    subst this
    rfl
  | succ n ih =>
    intro ls h
    cases ls with
    | nil => rfl
    | cons l ls' =>
      rcases ho : l.origin with _ | _ | _
      · rw [inlineLines_context l ls' ho, inlineLines_context l (inlineLines ls') ho,
          ih ls' (by simp at h; omega)]
      · rw [inlineLines_addition l ls' ho, inlineLines_addition l (inlineLines ls') ho,
          ih ls' (by simp at h; omega)]
      · set pdel : DiffLine → Bool := fun x => decide (x.origin = LineOrigin.Deletion) with hpdel
        set padd : DiffLine → Bool := fun x => decide (x.origin = LineOrigin.Addition) with hpadd
        set ds := (l :: ls').takeWhile pdel with hds0
        set rest1 := (l :: ls').dropWhile pdel with hrest1
        set as2 := rest1.takeWhile padd with has0
        set rest := rest1.dropWhile padd with hrest0
        have decomp : l :: ls' = ds ++ as2 ++ rest := by
          rw [List.append_assoc, has0, hrest0, List.takeWhile_append_dropWhile, hds0, hrest1,
            List.takeWhile_append_dropWhile]
        have hne : ds ≠ [] := by
          rw [hds0, List.takeWhile_cons_of_pos (by simp [hpdel, ho])]
          simp
        have hdsall : ∀ d ∈ ds, d.origin = LineOrigin.Deletion := by
          intro d hd
          have := List.mem_takeWhile_imp hd
          simpa [hpdel] using this
        have hasall : ∀ a ∈ as2, a.origin = LineOrigin.Addition := by
          intro a ha
          have := List.mem_takeWhile_imp ha
          simpa [hpadd] using this
        have hbound : ∀ x, rest.head? = some x → x.origin ≠ LineOrigin.Addition ∧
            (as2 = [] → x.origin ≠ LineOrigin.Deletion) := by
          intro x hx
          constructor
          · have := dropWhile_head_not padd rest1 x hx
            simpa [hpadd] using this
          · intro hemp
            have hr : rest = rest1 := by
              rw [hrest0, dropWhile_of_takeWhile_nil padd rest1 (by rw [← has0]; exact hemp)]
            rw [hr, hrest1] at hx
            have := dropWhile_head_not pdel (l :: ls') x hx
            simpa [hpdel] using this
        have hrestlen : rest.length ≤ n := by
          have hlen := congrArg List.length decomp
          simp at hlen
          have hdpos : 0 < ds.length := List.length_pos.mpr hne
          simp at h
          omega
        have hrun1 := inlineLines_run ds as2 rest hne hdsall hasall hbound
        have hds2ne : pairDels ds as2 ≠ [] := by
          intro hcon
          have := congrArg List.length hcon
          rw [pairDels_length] at this
          exact hne (List.eq_nil_of_length_eq_zero this)
        have hds2all : ∀ d ∈ pairDels ds as2, d.origin = LineOrigin.Deletion :=
          all_origin_of_map_eq (pairDels_origins ds as2) hdsall
        have has2all : ∀ a ∈ pairAdds as2 ds, a.origin = LineOrigin.Addition :=
          all_origin_of_map_eq (pairAdds_origins as2 ds) hasall
        have hbound2 : ∀ x, (inlineLines rest).head? = some x →
            x.origin ≠ LineOrigin.Addition ∧
            (pairAdds as2 ds = [] → x.origin ≠ LineOrigin.Deletion) := by
          intro x hx
          obtain ⟨y, hy, hyo⟩ := inlineLines_head_origin rest x hx
          obtain ⟨h1, h2⟩ := hbound y hy
          constructor
          · rw [← hyo]; exact h1
          · intro hemp
            have : as2 = [] := by
              have := congrArg List.length hemp
              rw [pairAdds_length] at this
              exact List.eq_nil_of_length_eq_zero this
            rw [← hyo]
            exact h2 this
        have hrun2 := inlineLines_run (pairDels ds as2) (pairAdds as2 ds)
          (inlineLines rest) hds2ne hds2all has2all hbound2
        have main : inlineLines (inlineLines (ds ++ as2 ++ rest)) =
            inlineLines (ds ++ as2 ++ rest) := by
          rw [hrun1, hrun2, pairDels_idem, pairAdds_idem, ih rest hrestlen]
        rw [decomp]
        exact main

theorem inlineLines_idem (ls : List DiffLine) :
    inlineLines (inlineLines ls) = inlineLines ls :=
  inlineLines_idem_aux ls.length ls (Nat.le_refl _)

theorem inlineLines_strip (ls : List DiffLine) :
    (inlineLines ls).map stripLine = ls.map stripLine := by
  simpa [inlineLines] using inlineGo_strip ls [] []

/-- C10: `compute_inline_changes` modifies only the `change_spans` fields:
after erasing every line's spans, the hunk lists (headers, counts, line order,
origins, contents and line numbers included) are identical before and after
the call. -/
theorem c10_compute_inline_changes_frame (hs : List Hunk) :
    (compute_inline_changes hs).map stripHunk = hs.map stripHunk := by
  simp only [compute_inline_changes, List.map_map]
  apply List.map_congr_left
  intro h _
  simp [Function.comp, stripHunk, inlineLines_strip]

/-- C8 (amended): `compute_inline_changes` is idempotent as-is: running it a
second time on its own output — without clearing any `change_spans` —
overwrites every paired line's spans with the same recomputed values and
leaves every other line untouched, so the result is identical. -/
theorem c8_compute_inline_changes_idempotent (hs : List Hunk) :
    compute_inline_changes (compute_inline_changes hs) = compute_inline_changes hs := by
  simp only [compute_inline_changes, List.map_map]
  apply List.map_congr_left
  intro h _
  simp [Function.comp, inlineLines_idem]

/-- C8 counterexample: on the `"hello world"`/`"hello earth"` hunk a second
run of `compute_inline_changes` without any reset yields exactly the same
spans, although the spans were left non-empty in between — refuting the claim
that identical spans require clearing them first. -/
theorem c8_counterexample :
    compute_inline_changes (compute_inline_changes exPairHunks) =
        compute_inline_changes exPairHunks ∧
      (compute_inline_changes exPairHunks).map (fun h => h.lines.map DiffLine.change_spans) ≠
        exPairHunks.map (fun h => h.lines.map DiffLine.change_spans) :=
  ⟨rfl, by decide⟩

theorem pairDels_spans_valid (ds : List DiffLine) : ∀ as2,
    (∀ d ∈ ds, d.change_spans = []) → ∀ x ∈ pairDels ds as2, ∀ s ∈ x.change_spans,
      s.start ≤ s.«end» ∧ s.«end» ≤ utf8Len x.content ∧
        IsUtf8Boundary x.content s.start ∧ IsUtf8Boundary x.content s.«end» := by
  induction ds with
  | nil => intro as2 _ x hx; exact absurd hx (List.not_mem_nil x)
  | cons d ds ih =>
    intro as2 hemp x hx
    cases as2 with
    | nil =>
      rw [pairDels_nil_right] at hx
      intro s hs
      rw [hemp x hx] at hs
      exact absurd hs (List.not_mem_nil s)
    | cons a as2 =>
      simp only [pairDels] at hx
      rcases List.mem_cons.mp hx with h | h
      · subst h
        intro s hs
        exact word_diff_old_valid d.content a.content s hs
      · exact ih as2 (fun y hy => hemp y (List.mem_cons_of_mem d hy)) x h

theorem pairAdds_spans_valid (as2 : List DiffLine) : ∀ ds,
    (∀ a ∈ as2, a.change_spans = []) → ∀ x ∈ pairAdds as2 ds, ∀ s ∈ x.change_spans,
      s.start ≤ s.«end» ∧ s.«end» ≤ utf8Len x.content ∧
        IsUtf8Boundary x.content s.start ∧ IsUtf8Boundary x.content s.«end» := by
  induction as2 with
  | nil => intro ds _ x hx; exact absurd hx (List.not_mem_nil x)
  | cons a as2 ih =>
    intro ds hemp x hx
    cases ds with
    | nil =>
      rw [pairAdds_nil_right] at hx
      intro s hs
      rw [hemp x hx] at hs
      exact absurd hs (List.not_mem_nil s)
    | cons d ds =>
      simp only [pairAdds] at hx
      rcases List.mem_cons.mp hx with h | h
      · subst h
        intro s hs
        exact word_diff_new_valid d.content a.content s hs
      · exact ih ds (fun y hy => hemp y (List.mem_cons_of_mem a hy)) x h

theorem flushInline_spans_valid (pd pa : List DiffLine)
    (hpd : ∀ l ∈ pd, l.change_spans = []) (hpa : ∀ l ∈ pa, l.change_spans = []) :
    ∀ x ∈ flushInline pd pa, ∀ s ∈ x.change_spans,
      s.start ≤ s.«end» ∧ s.«end» ≤ utf8Len x.content ∧
        IsUtf8Boundary x.content s.start ∧ IsUtf8Boundary x.content s.«end» := by
  intro x hx
  rcases List.mem_append.mp hx with h | h
  · exact pairDels_spans_valid pd pa hpd x h
  · exact pairAdds_spans_valid pa pd hpa x h

theorem inlineGo_spans_valid : ∀ (ls pd pa : List DiffLine),
    (∀ l ∈ pd, l.change_spans = []) → (∀ l ∈ pa, l.change_spans = []) →
    (∀ l ∈ ls, l.change_spans = []) →
    ∀ x ∈ inlineGo pd pa ls, ∀ s ∈ x.change_spans,
      s.start ≤ s.«end» ∧ s.«end» ≤ utf8Len x.content ∧
        IsUtf8Boundary x.content s.start ∧ IsUtf8Boundary x.content s.«end» := by
  intro ls
  induction ls with
  | nil =>
    intro pd pa hpd hpa _ x hx
    exact flushInline_spans_valid pd pa hpd hpa x hx
  | cons l ls ih =>
    intro pd pa hpd hpa hls x hx
    have hltl : l.change_spans = [] := hls l (List.mem_cons_self l ls)
    have htl : ∀ y ∈ ls, y.change_spans = [] := fun y hy => hls y (List.mem_cons_of_mem l hy)
    rcases ho : l.origin with _ | _ | _ <;> simp only [inlineGo, ho] at hx
    · rcases List.mem_append.mp hx with h | h
      · exact flushInline_spans_valid pd pa hpd hpa x h
      · rcases List.mem_cons.mp h with h | h
        · subst h
          intro s hs
          rw [hltl] at hs
          exact absurd hs (List.not_mem_nil s)
        · exact ih [] [] (by simp) (by simp) htl x h
    · split_ifs at hx with h
      · rcases List.mem_cons.mp hx with h2 | h2
        · subst h2
          intro s hs
          rw [hltl] at hs
          exact absurd hs (List.not_mem_nil s)
        · exact ih [] [] (by simp) (by simp) htl x h2
      · refine ih pd (pa ++ [l]) hpd ?_ htl x hx
        intro y hy
        rcases List.mem_append.mp hy with h2 | h2
        · exact hpa y h2
        · rw [List.mem_singleton.mp h2]
          exact hltl
    · split_ifs at hx with h
      · refine ih (pd ++ [l]) [] ?_ (by simp) htl x hx
        intro y hy
        rcases List.mem_append.mp hy with h2 | h2
        · exact hpd y h2
        · rw [List.mem_singleton.mp h2]
          exact hltl
      · rcases List.mem_append.mp hx with h2 | h2
        · exact flushInline_spans_valid pd pa hpd hpa x h2
        · refine ih [l] [] ?_ (by simp) htl x h2
          intro y hy
          rw [List.mem_singleton.mp hy]
          exact hltl

/-- C5: every `InlineSpan` stored by `compute_inline_changes` satisfies
`0 ≤ start ≤ end ≤` the byte length of its line's content, and both offsets
land on UTF-8 character boundaries, so slicing the content by the span never
fails. -/
theorem c5_inline_spans_valid (hs : List Hunk)
    (hempty : ∀ h ∈ hs, ∀ l ∈ h.lines, l.change_spans = []) :
    ∀ h' ∈ compute_inline_changes hs, ∀ l' ∈ h'.lines, ∀ s ∈ l'.change_spans,
      s.start ≤ s.«end» ∧ s.«end» ≤ utf8Len l'.content ∧
        IsUtf8Boundary l'.content s.start ∧ IsUtf8Boundary l'.content s.«end» := by
  intro h' hh' l' hl' s hs'
  simp only [compute_inline_changes, List.mem_map] at hh'
  obtain ⟨h, hh, rfl⟩ := hh'
  exact inlineGo_spans_valid h.lines [] [] (by simp) (by simp) (hempty h hh) l' hl' s hs'

/-- C5 witness: the validity theorem applied to the concrete
`"hello world"`/`"hello earth"` hunk, whose lines start with empty spans. -/
theorem c5_witness :
    (∀ h ∈ exPairHunks, ∀ l ∈ h.lines, l.change_spans = []) ∧
    (∀ h' ∈ compute_inline_changes exPairHunks, ∀ l' ∈ h'.lines, ∀ s ∈ l'.change_spans,
      s.start ≤ s.«end» ∧ s.«end» ≤ utf8Len l'.content ∧
        IsUtf8Boundary l'.content s.start ∧ IsUtf8Boundary l'.content s.«end») :=
  ⟨by decide, c5_inline_spans_valid exPairHunks (by decide)⟩

/-- C7: pairing the deletion `"hello world"` with the addition
`"hello earth"` produces exactly one span per line, and slicing each content
by its span yields `"world"` and `"earth"` respectively. -/
theorem c7_hello_world_earth :
    (compute_inline_changes exPairHunks).map
        (fun h => h.lines.map fun l =>
          l.change_spans.map fun s => sliceBytes l.content s.start s.«end») =
      [[[("world".data)], [("earth".data)]]] := rfl

theorem pairDels_drop (ds : List DiffLine) : ∀ as2 i, as2.length ≤ i →
    (pairDels ds as2)[i]? = ds[i]? := by
  induction ds with
  | nil => intro as2 i _; cases as2 <;> rfl
  | cons d ds ih =>
    intro as2 i hlen
    cases as2 with
    | nil => rw [pairDels_nil_right]
    | cons a as2 =>
      cases i with
      | zero => simp at hlen
      | succ i =>
        simp only [pairDels, List.getElem?_cons_succ]
        exact ih as2 i (by simpa using hlen)

theorem pairAdds_drop (as2 : List DiffLine) : ∀ ds i, ds.length ≤ i →
    (pairAdds as2 ds)[i]? = as2[i]? := by
  induction as2 with
  | nil => intro ds i _; cases ds <;> rfl
  | cons a as2 ih =>
    intro ds i hlen
    cases ds with
    | nil => rw [pairAdds_nil_right]
    | cons d ds =>
      cases i with
      | zero => simp at hlen
      | succ i =>
        simp only [pairAdds, List.getElem?_cons_succ]
        exact ih ds i (by simpa using hlen)

theorem pairDels_pair (ds : List DiffLine) :
    ∀ (as2 : List DiffLine) (i : Nat) (d a : DiffLine), ds[i]? = some d →
    as2[i]? = some a →
    (pairDels ds as2)[i]? = some { d with change_spans := (word_diff d.content a.content).1 } := by
  induction ds with
  | nil => intro as2 i d a hd _; simp at hd
  | cons d0 ds ih =>
    intro as2 i d a hd ha
    cases as2 with
    | nil => simp at ha
    | cons a0 as2 =>
      cases i with
      | zero =>
        simp at hd ha
        subst hd
        subst ha
        simp [pairDels]
      | succ i =>
        simp only [pairDels, List.getElem?_cons_succ] at hd ha ⊢
        exact ih as2 i d a hd ha

theorem pairAdds_pair (as2 : List DiffLine) :
    ∀ (ds : List DiffLine) (i : Nat) (d a : DiffLine), ds[i]? = some d →
    as2[i]? = some a →
    (pairAdds as2 ds)[i]? = some { a with change_spans := (word_diff d.content a.content).2 } := by
  induction as2 with
  | nil => intro ds i d a _ ha; simp at ha
  | cons a0 as2 ih =>
    intro ds i d a hd ha
    cases ds with
    | nil => simp at hd
    | cons d0 ds =>
      cases i with
      | zero =>
        simp at hd ha
        subst hd
        subst ha
        simp [pairAdds]
      | succ i =>
        simp only [pairAdds, List.getElem?_cons_succ] at hd ha ⊢
        exact ih ds i d a hd ha

/-- C4: after `compute_inline_changes`, non-empty spans can live only on lines
paired index-by-index between a deletion run and the addition run immediately
following it.  The conjuncts state: the engine is `inlineLines` mapped over
the hunks; a Context head and an Addition head with no preceding deletion run
pass through unchanged; a deletion run followed by its addition run rewrites
exactly the paired lines via `pairDels`/`pairAdds`; a run without a partner
run is left entirely unchanged; every unpaired trailing line of the longer
run is returned unchanged; and a paired deletion/addition with identical
content receives empty spans on both sides. -/
theorem c4_inline_spans_only_paired :
    (∀ hs : List Hunk, compute_inline_changes hs =
        hs.map fun h => { h with lines := inlineLines h.lines }) ∧
    (∀ l ls, l.origin = LineOrigin.Context → inlineLines (l :: ls) = l :: inlineLines ls) ∧
    (∀ l ls, l.origin = LineOrigin.Addition → inlineLines (l :: ls) = l :: inlineLines ls) ∧
    (∀ ds as2 ls, ds ≠ [] → (∀ d ∈ ds, d.origin = LineOrigin.Deletion) →
      (∀ a ∈ as2, a.origin = LineOrigin.Addition) →
      (∀ x, ls.head? = some x → x.origin ≠ LineOrigin.Addition ∧
        (as2 = [] → x.origin ≠ LineOrigin.Deletion)) →
      inlineLines (ds ++ as2 ++ ls) =
        pairDels ds as2 ++ pairAdds as2 ds ++ inlineLines ls) ∧
    (∀ ds, pairDels ds [] = ds) ∧
    (∀ as2, pairAdds as2 [] = as2) ∧
    (∀ ds as2 i, as2.length ≤ i → (pairDels ds as2)[i]? = ds[i]?) ∧
    (∀ as2 ds i, ds.length ≤ i → (pairAdds as2 ds)[i]? = as2[i]?) ∧
    (∀ (ds as2 : List DiffLine) (i : Nat) (d a : DiffLine),
      ds[i]? = some d → as2[i]? = some a → d.content = a.content →
      (pairDels ds as2)[i]? = some { d with change_spans := [] } ∧
      (pairAdds as2 ds)[i]? = some { a with change_spans := [] }) := by
  refine ⟨fun hs => rfl, inlineLines_context, inlineLines_addition, inlineLines_run,
    pairDels_nil_right, pairAdds_nil_right, pairDels_drop, pairAdds_drop, ?_⟩
  intro ds as2 i d a hd ha hc
  constructor
  · rw [pairDels_pair ds as2 i d a hd ha, hc, word_diff_refl]
  · rw [pairAdds_pair as2 ds i d a hd ha, hc, word_diff_refl]

/-- C4 witness: the run equation and the identical-content clause at a
concrete one-deletion/one-addition hunk with equal contents. -/
theorem c4_witness :
    inlineLines ([mkLine LineOrigin.Deletion ("same".data)] ++
        [mkLine LineOrigin.Addition ("same".data)] ++ []) =
      pairDels [mkLine LineOrigin.Deletion ("same".data)]
          [mkLine LineOrigin.Addition ("same".data)] ++
        pairAdds [mkLine LineOrigin.Addition ("same".data)]
          [mkLine LineOrigin.Deletion ("same".data)] ++ inlineLines [] ∧
    (pairDels [mkLine LineOrigin.Deletion ("same".data)]
        [mkLine LineOrigin.Addition ("same".data)])[0]? =
      some { mkLine LineOrigin.Deletion ("same".data) with change_spans := [] } :=
  ⟨c4_inline_spans_only_paired.2.2.2.1 _ _ _ (by decide) (by decide) (by decide)
      (fun x hx => by simp at hx),
    (c4_inline_spans_only_paired.2.2.2.2.2.2.2.2 _ _ 0
      (mkLine LineOrigin.Deletion ("same".data)) (mkLine LineOrigin.Addition ("same".data))
      (by simp) (by simp) rfl).1⟩

/-! ### Split pairer characterization -/

theorem splitGo_dels : ∀ (ds : List DiffLine), (∀ d ∈ ds, d.origin = LineOrigin.Deletion) →
    ∀ pd ls, splitGo pd [] (ds ++ ls) = splitGo (pd ++ ds) [] ls := by
  intro ds
  induction ds with
  | nil => intro _ pd ls; simp
  | cons d ds ih =>
    intro hall pd ls
    have hd : d.origin = LineOrigin.Deletion := hall d (List.mem_cons_self d ds)
    have step : splitGo pd [] ((d :: ds) ++ ls) = splitGo (pd ++ [d]) [] (ds ++ ls) := by
      simp [splitGo, hd]
    rw [step, ih (fun x hx => hall x (List.mem_cons_of_mem d hx)) (pd ++ [d]) ls]
    simp

theorem splitGo_adds_flush : ∀ (as2 : List DiffLine),
    (∀ a ∈ as2, a.origin = LineOrigin.Addition) →
    ∀ pd pa ls, pd ≠ [] →
    (∀ x, ls.head? = some x → x.origin ≠ LineOrigin.Addition ∧
      (pa ++ as2 = [] → x.origin ≠ LineOrigin.Deletion)) →
    splitGo pd pa (as2 ++ ls) = pairRows pd (pa ++ as2) ++ splitGo [] [] ls := by
  intro as2
  induction as2 with
  | nil =>
    intro _ pd pa ls hpd hbound
    cases ls with
    | nil => simp [splitGo, pairRows]
    | cons x ls =>
      obtain ⟨hxa, hxd⟩ := hbound x rfl
      rcases ho : x.origin with _ | _ | _
      · simp [splitGo, ho, pairRows]
      · exact absurd ho hxa
      · by_cases hpa : pa = []
        · exact absurd ho (hxd (by simp [hpa]))
        · have step : splitGo pd pa (x :: ls) =
              pairRows pd pa ++ splitGo [x] [] ls := by
            simp [splitGo, ho, List.isEmpty_iff, hpa]
          have step2 : splitGo [] [] (x :: ls) = splitGo [x] [] ls := by
            simp [splitGo, ho, pairRows]
          simp only [List.append_nil, List.nil_append]
          rw [step, step2]
  | cons a as2 ih =>
    intro hall pd pa ls hpd hbound
    have ha : a.origin = LineOrigin.Addition := hall a (List.mem_cons_self a as2)
    have step : splitGo pd pa ((a :: as2) ++ ls) =
        splitGo pd (pa ++ [a]) (as2 ++ ls) := by
      simp [splitGo, ha, List.isEmpty_iff, hpd]
    rw [step, ih (fun x hx => hall x (List.mem_cons_of_mem a hx)) pd (pa ++ [a]) ls hpd
      (fun x hx => ⟨(hbound x hx).1, fun hemp => by simp at hemp⟩)]
    simp

theorem split_hunk_lines_context (l : DiffLine) (ls : List DiffLine)
    (h : l.origin = LineOrigin.Context) :
    split_hunk_lines (l :: ls) =
      { left := some l, right := some l } :: split_hunk_lines ls := by
  simp [split_hunk_lines, splitGo, h, pairRows]

theorem split_hunk_lines_addition (l : DiffLine) (ls : List DiffLine)
    (h : l.origin = LineOrigin.Addition) :
    split_hunk_lines (l :: ls) =
      { left := none, right := some l } :: split_hunk_lines ls := by
  simp [split_hunk_lines, splitGo, h]

theorem split_hunk_lines_run (ds as2 ls : List DiffLine) (hne : ds ≠ [])
    (hds : ∀ d ∈ ds, d.origin = LineOrigin.Deletion)
    (has : ∀ a ∈ as2, a.origin = LineOrigin.Addition)
    (hbound : ∀ x, ls.head? = some x → x.origin ≠ LineOrigin.Addition ∧
      (as2 = [] → x.origin ≠ LineOrigin.Deletion)) :
    split_hunk_lines (ds ++ as2 ++ ls) = pairRows ds as2 ++ split_hunk_lines ls := by
  cases ds with
  | nil => exact absurd rfl hne
  | cons d ds =>
    have hd : d.origin = LineOrigin.Deletion := hds d (List.mem_cons_self d ds)
    have step1 : split_hunk_lines ((d :: ds) ++ as2 ++ ls) =
        splitGo [d] [] (ds ++ (as2 ++ ls)) := by
      simp [split_hunk_lines, splitGo, hd]
    rw [step1, splitGo_dels ds (fun x hx => hds x (List.mem_cons_of_mem d hx)) [d] (as2 ++ ls),
      splitGo_adds_flush as2 has ([d] ++ ds) [] ls (by simp)
        (fun x hx => ⟨(hbound x hx).1, fun hemp => (hbound x hx).2 (by simpa using hemp)⟩)]
    simp [split_hunk_lines]

theorem pairRows_length (ds as2 : List DiffLine) :
    (pairRows ds as2).length = max ds.length as2.length := by
  simp [pairRows]
  omega

/-- C3: `split_hunk_lines` emits one two-sided row per Context line, one
`left = none` row per standalone addition, and for a deletion run followed by
its addition run exactly the rows of `pairRows`: `min` paired rows, then the
excess deletions with `right = none`, then the excess additions with
`left = none` — `max(del, add)` rows in total, in source order.  In
particular 3 deletions + 1 addition give one paired and two right-`none`
rows, and 1 deletion + 3 additions give one paired and two left-`none` rows. -/
theorem c3_split_hunk_lines_rows :
    (∀ l ls, l.origin = LineOrigin.Context → split_hunk_lines (l :: ls) =
      { left := some l, right := some l } :: split_hunk_lines ls) ∧
    (∀ l ls, l.origin = LineOrigin.Addition → split_hunk_lines (l :: ls) =
      { left := none, right := some l } :: split_hunk_lines ls) ∧
    (∀ ds as2 ls, ds ≠ [] → (∀ d ∈ ds, d.origin = LineOrigin.Deletion) →
      (∀ a ∈ as2, a.origin = LineOrigin.Addition) →
      (∀ x, ls.head? = some x → x.origin ≠ LineOrigin.Addition ∧
        (as2 = [] → x.origin ≠ LineOrigin.Deletion)) →
      split_hunk_lines (ds ++ as2 ++ ls) = pairRows ds as2 ++ split_hunk_lines ls) ∧
    (∀ ds as2, (pairRows ds as2).length = max ds.length as2.length) ∧
    (∀ d1 d2 d3 a1 : DiffLine, d1.origin = LineOrigin.Deletion →
      d2.origin = LineOrigin.Deletion → d3.origin = LineOrigin.Deletion →
      a1.origin = LineOrigin.Addition →
      split_hunk_lines [d1, d2, d3, a1] =
        [{ left := some d1, right := some a1 }, { left := some d2, right := none },
         { left := some d3, right := none }]) ∧
    (∀ d1 a1 a2 a3 : DiffLine, d1.origin = LineOrigin.Deletion →
      a1.origin = LineOrigin.Addition → a2.origin = LineOrigin.Addition →
      a3.origin = LineOrigin.Addition →
      split_hunk_lines [d1, a1, a2, a3] =
        [{ left := some d1, right := some a1 }, { left := none, right := some a2 },
         { left := none, right := some a3 }]) := by
  refine ⟨split_hunk_lines_context, split_hunk_lines_addition, split_hunk_lines_run,
    pairRows_length, ?_, ?_⟩
  · intro d1 d2 d3 a1 h1 h2 h3 h4
    have hrun := split_hunk_lines_run [d1, d2, d3] [a1] []
      (by simp) (by simp [h1, h2, h3]) (by simp [h4]) (fun x hx => by simp at hx)
    simp only [List.append_nil] at hrun
    rw [show ([d1, d2, d3] ++ [a1] : List DiffLine) = [d1, d2, d3, a1] by simp] at hrun
    rw [hrun]
    simp [pairRows, split_hunk_lines, splitGo]
  · intro d1 a1 a2 a3 h1 h2 h3 h4
    have hrun := split_hunk_lines_run [d1] [a1, a2, a3] []
      (by simp) (by simp [h1]) (by simp [h2, h3, h4]) (fun x hx => by simp at hx)
    simp only [List.append_nil] at hrun
    rw [show ([d1] ++ [a1, a2, a3] : List DiffLine) = [d1, a1, a2, a3] by simp] at hrun
    rw [hrun]
    simp [pairRows, split_hunk_lines, splitGo]

/-- C3 witness: the run equation of the split pairer at a concrete
three-deletions/one-addition hunk. -/
theorem c3_witness :
    split_hunk_lines [mkLine LineOrigin.Deletion ("o1".data),
        mkLine LineOrigin.Deletion ("o2".data), mkLine LineOrigin.Deletion ("o3".data),
        mkLine LineOrigin.Addition ("n1".data)] =
      [{ left := some (mkLine LineOrigin.Deletion ("o1".data)),
         right := some (mkLine LineOrigin.Addition ("n1".data)) },
       { left := some (mkLine LineOrigin.Deletion ("o2".data)), right := none },
       { left := some (mkLine LineOrigin.Deletion ("o3".data)), right := none }] :=
  c3_split_hunk_lines_rows.2.2.2.2.1 _ _ _ _ rfl rfl rfl rfl

/-! ### String plumbing for the parser theorems -/

theorem isPref_append (p t : List Char) : isPref p (p ++ t) = true := by
  induction p with
  | nil => rfl
  | cons c p ih => simp [isPref, ih]

theorem isPref_head_ne {c d : Char} {p t : List Char} (hne : d ≠ c) :
    isPref (d :: p) (c :: t) = false := by
  simp [isPref, hne]

theorem splitInclNl_append_newline (l : List Char) (rest : List Char)
    (hl : '\n' ∉ l) : splitInclNl (l ++ '\n' :: rest) = (l ++ ['\n']) :: splitInclNl rest := by
  induction l with
  | nil => simp [splitInclNl]
  | cons c l ih =>
    have hc : c ≠ '\n' := fun h => hl (h ▸ List.mem_cons_self c l)
    have hl' : '\n' ∉ l := fun h => hl (List.mem_cons_of_mem c h)
    simp only [List.cons_append, splitInclNl, if_neg hc, List.append_eq, ih hl']

theorem stripEol_append_newline (l : List Char) (hl : '\r' ∉ l) :
    stripEol (l ++ ['\n']) = l := by
  rcases hrev : l.reverse with _ | ⟨c, t⟩
  · have : l = [] := by simpa using congrArg List.reverse hrev
    subst this
    rfl
  · have hc : c ≠ '\r' := by
      intro h
      subst h
      exact hl (by
        have : '\r' ∈ l.reverse := by rw [hrev]; exact List.mem_cons_self _ _
        simpa using this)
    have hrev2 : (l ++ ['\n']).reverse = '\n' :: c :: t := by
      rw [List.reverse_append, hrev]
      rfl
    simp only [stripEol, hrev2]
    split
    · next heq =>
      exfalso
      apply hc
      have := List.cons.inj heq
      exact (List.cons.inj this.2).1.symm ▸ rfl
    · next heq =>
      have := List.cons.inj heq
      rw [← this.2, ← hrev]
      simp
    · next hne1 hne2 =>
      exact absurd (hne2 (c :: t) rfl) (fun h => h)

theorem rustLines_mkInput (ls : List (List Char))
    (h : ∀ l ∈ ls, '\n' ∉ l ∧ '\r' ∉ l) : rustLines (mkInput ls) = ls := by
  induction ls with
  | nil => rfl
  | cons l ls ih =>
    obtain ⟨h1, h2⟩ := h l (List.mem_cons_self l ls)
    have hmk : mkInput (l :: ls) = l ++ '\n' :: mkInput ls := by
      simp [mkInput]
    rw [rustLines, hmk, splitInclNl_append_newline l (mkInput ls) h1]
    simp only [List.map_cons, stripEol_append_newline l h2]
    rw [← rustLines, ih (fun m hm => h m (List.mem_cons_of_mem l hm))]

theorem breakCh_no_sep_append (sep : Char) (xs ys : List Char) (h : sep ∉ xs) :
    breakCh sep (xs ++ sep :: ys) = (xs, sep :: ys) := by
  induction xs with
  | nil => simp [breakCh]
  | cons c xs ih =>
    have hc : c ≠ sep := fun he => h (he ▸ List.mem_cons_self c xs)
    simp only [List.cons_append, breakCh, if_neg hc, List.append_eq,
      ih (fun hm => h (List.mem_cons_of_mem c hm))]

theorem parse_diff_header_git (A B : List Char) (hA : ' ' ∉ A) :
    parse_diff_header ("diff --git a/".data ++ A ++ " b/".data ++ B) =
      (B, FileStatus.Modified) := by
  have e : "diff --git a/".data ++ A ++ " b/".data ++ B =
      "diff".data ++ ' ' ::
        ("--git".data ++ ' ' :: (("a/".data ++ A) ++ ' ' :: ("b/".data ++ B))) := by
    simp [List.append_assoc]
  have hs1 : ' ' ∉ ("a/".data ++ A) := by
    intro hm
    rcases List.mem_append.mp hm with h | h
    · exact absurd h (by decide)
    · exact hA h
  have h4 : splitnCh 4 ' '
      ("diff".data ++ ' ' ::
        ("--git".data ++ ' ' :: (("a/".data ++ A) ++ ' ' :: ("b/".data ++ B)))) =
      ["diff".data, "--git".data, "a/".data ++ A, "b/".data ++ B] := by
    simp only [splitnCh, breakCh_no_sep_append ' ' ("diff".data) _ (by decide),
      breakCh_no_sep_append ' ' ("--git".data) _ (by decide),
      breakCh_no_sep_append ' ' ("a/".data ++ A) _ hs1]
  rw [e]
  have hb : isPref ['b', '/'] ('b' :: '/' :: B) = true := rfl
  simp only [parse_diff_header, h4]
  simp [stripPrefOr, hb]

theorem parseExtHeaders_skip_mids : ∀ (mids : List (List Char)) (st : FileStatus)
    (op : Option (List Char)) (tail : List (List Char)),
    (∀ m ∈ mids, isPref ("---".data) m = false ∧ isPref ("diff --git".data) m = false ∧
      isPref ("@@".data) m = false) →
    ∃ st2 op2, parseExtHeaders st op (mids ++ tail) = parseExtHeaders st2 op2 tail := by
  intro mids
  induction mids with
  | nil => intro st op tail _; exact ⟨st, op, rfl⟩
  | cons m mids ih =>
    intro st op tail hall
    obtain ⟨h1, h2, h3⟩ := hall m (List.mem_cons_self m mids)
    have hrest := fun x hx => hall x (List.mem_cons_of_mem m hx)
    simp only [List.cons_append, parseExtHeaders, h1, h2, h3, Bool.or_self, Bool.or_false,
      Bool.false_or, if_false]
    split_ifs <;> first
      | exact ih _ _ _ hrest
      | exact False.elim (by assumption)

theorem parseExtHeaders_rename (A B : List Char) (st : FileStatus)
    (op : Option (List Char)) :
    parseExtHeaders st op [("rename from ".data ++ A), ("rename to ".data ++ B)] =
      (FileStatus.Renamed, some A, []) := rfl

/-- C9: a file-header block whose extended headers end with a
`rename from A` / `rename to B` pair and which has no hunks parses to exactly
one `FileDiff` with status `Renamed`, `path = B` (the `b/` side of the
`diff --git` line), `old_path = some A`, and no hunks.  `A` may not contain
spaces or line breaks, `B` no line breaks, and the other extended header
lines must not look like a `---` / `diff --git` / `@@` boundary. -/
theorem c9_rename_header (A B : List Char) (mids : List (List Char))
    (hA1 : ' ' ∉ A) (hA2 : '\n' ∉ A) (hA3 : '\r' ∉ A)
    (hB2 : '\n' ∉ B) (hB3 : '\r' ∉ B)
    (hmids : ∀ m ∈ mids, '\n' ∉ m ∧ '\r' ∉ m ∧
      isPref ("---".data) m = false ∧ isPref ("diff --git".data) m = false ∧
      isPref ("@@".data) m = false) :
    parse_unified_diff (mkInput (("diff --git a/".data ++ A ++ " b/".data ++ B) ::
        (mids ++ [("rename from ".data ++ A), ("rename to ".data ++ B)]))) =
      Except.ok [{ path := B, old_path := some A, status := FileStatus.Renamed,
                   hunks := [] }] := by
  set hdr : List Char := "diff --git a/".data ++ A ++ " b/".data ++ B with hhdr
  set rf : List Char := "rename from ".data ++ A with hrf
  set rt : List Char := "rename to ".data ++ B with hrt
  have hno : ∀ l ∈ (hdr :: (mids ++ [rf, rt])), '\n' ∉ l ∧ '\r' ∉ l := by
    intro l hl
    rcases List.mem_cons.mp hl with rfl | hl
    · constructor <;> intro hm <;>
        [rcases List.mem_append.mp hm with hm | hm;
         rcases List.mem_append.mp hm with hm | hm]
      · rcases List.mem_append.mp hm with hm | hm
        · rcases List.mem_append.mp hm with hm | hm
          · exact absurd hm (by decide)
          · exact hA2 hm
        · exact absurd hm (by decide)
      · exact hB2 hm
      · rcases List.mem_append.mp hm with hm | hm
        · rcases List.mem_append.mp hm with hm | hm
          · exact absurd hm (by decide)
          · exact hA3 hm
        · exact absurd hm (by decide)
      · exact hB3 hm
    · rcases List.mem_append.mp hl with hm | hm
      · obtain ⟨m1, m2, _, _, _⟩ := hmids l hm
        exact ⟨m1, m2⟩
      · rcases List.mem_cons.mp hm with rfl | hm
        · constructor <;> intro hm2 <;> rcases List.mem_append.mp hm2 with hm2 | hm2
          · exact absurd hm2 (by decide)
          · exact hA2 hm2
          · exact absurd hm2 (by decide)
          · exact hA3 hm2
        · rcases List.mem_cons.mp hm with rfl | hm
          · constructor <;> intro hm2 <;> rcases List.mem_append.mp hm2 with hm2 | hm2
            · exact absurd hm2 (by decide)
            · exact hB2 hm2
            · exact absurd hm2 (by decide)
            · exact hB3 hm2
          · exact absurd hm (List.not_mem_nil l)
  have hlines : rustLines (mkInput (hdr :: (mids ++ [rf, rt]))) = hdr :: (mids ++ [rf, rt]) :=
    rustLines_mkInput _ hno
  have hlen : (hdr :: (mids ++ [rf, rt])).length = mids.length + 3 := by simp
  have hdiff : isPref ("diff --git".data) hdr = true := by
    rw [hhdr]
    have e : "diff --git a/".data ++ A ++ " b/".data ++ B =
        "diff --git".data ++ (" a/".data ++ A ++ " b/".data ++ B) := by
      simp [List.append_assoc]
    rw [e]
    exact isPref_append _ _
  have hph : parse_diff_header hdr = (B, FileStatus.Modified) := parse_diff_header_git A B hA1
  obtain ⟨st2, op2, heh⟩ := parseExtHeaders_skip_mids mids FileStatus.Modified none [rf, rt]
    (fun m hm => ⟨(hmids m hm).2.2.1, (hmids m hm).2.2.2.1, (hmids m hm).2.2.2.2⟩)
  have heh2 : parseExtHeaders FileStatus.Modified none (mids ++ [rf, rt]) =
      (FileStatus.Renamed, some A, []) := by
    rw [heh, hrf, hrt, parseExtHeaders_rename]
  rw [parse_unified_diff, hlines]
  simp only [hlen]
  simp only [parseFilesAux, hdiff, if_true, hph, heh2]
  rfl

/-- C9 witness: the rename theorem at the concrete block of the repository's
`test_parse_renamed_file_diff` unit test. -/
theorem c9_witness :
    parse_unified_diff (mkInput (("diff --git a/".data ++ "old_name.txt".data ++
        " b/".data ++ "new_name.txt".data) ::
        (["similarity index 100%".data] ++
          [("rename from ".data ++ "old_name.txt".data),
           ("rename to ".data ++ "new_name.txt".data)]))) =
      Except.ok [{ path := "new_name.txt".data, old_path := some ("old_name.txt".data),
                   status := FileStatus.Renamed, hunks := [] }] :=
  c9_rename_header _ _ _ (by decide) (by decide) (by decide) (by decide) (by decide)
    (by decide)

/-! ### Hunk provenance and body classification -/

theorem isPref_single {c : Char} {l : List Char} (h : isPref [c] l = true) :
    ∃ t, l = c :: t := by
  cases l with
  | nil => simp [isPref] at h
  | cons d t =>
    simp only [isPref] at h
    split_ifs at h with he
    exact ⟨t, by rw [he]⟩

theorem parse_hunk_cons (hdr : List Char) (body : List (List Char)) :
    parse_hunk (hdr :: body) =
      ({ header := hdr, old_start := (parse_hunk_header hdr).1,
         old_count := (parse_hunk_header hdr).2.1,
         new_start := (parse_hunk_header hdr).2.2.1,
         new_count := (parse_hunk_header hdr).2.2.2,
         lines := (parseHunkLines (parse_hunk_header hdr).1
           (parse_hunk_header hdr).2.2.1 body).1 },
       (parseHunkLines (parse_hunk_header hdr).1 (parse_hunk_header hdr).2.2.1 body).2) :=
  rfl

theorem parseHunksAux_hunks : ∀ (fuel : Nat) (ls : List (List Char)) (hs : List Hunk)
    (rest : List (List Char)), parseHunksAux fuel ls = some (hs, rest) →
    ∀ h ∈ hs, ∃ hdr body, h = (parse_hunk (hdr :: body)).1 := by
  intro fuel
  induction fuel with
  | zero => intro ls hs rest hmain; simp [parseHunksAux] at hmain
  | succ fuel ih =>
    intro ls hs rest hmain
    cases ls with
    | nil =>
      simp only [parseHunksAux] at hmain
      obtain ⟨rfl, rfl⟩ := Prod.mk.inj (Option.some.inj hmain)
      intro h hh
      exact absurd hh (List.not_mem_nil h)
    | cons l ls =>
      simp only [parseHunksAux] at hmain
      split_ifs at hmain with h1 h2
      · obtain ⟨rfl, rfl⟩ := Prod.mk.inj (Option.some.inj hmain)
        intro h hh
        exact absurd hh (List.not_mem_nil h)
      · rcases heq : parseHunksAux fuel (parse_hunk (l :: ls)).2 with _ | ⟨hs2, rest2⟩
        · rw [heq] at hmain
          simp at hmain
        · rw [heq] at hmain
          simp only [] at hmain
          obtain ⟨rfl, rfl⟩ := Prod.mk.inj (Option.some.inj hmain)
          intro h hh
          rcases List.mem_cons.mp hh with rfl | hh
          · exact ⟨l, ls, rfl⟩
          · exact ih _ _ _ heq h hh
      · exact ih _ _ _ hmain

theorem parseFilesAux_hunks : ∀ (fuel : Nat) (ls : List (List Char)) (fds : List FileDiff),
    parseFilesAux fuel ls = some fds →
    ∀ fd ∈ fds, ∀ h ∈ fd.hunks, ∃ hdr body, h = (parse_hunk (hdr :: body)).1 := by
  intro fuel
  induction fuel with
  | zero => intro ls fds hmain; simp [parseFilesAux] at hmain
  | succ fuel ih =>
    intro ls fds hmain
    cases ls with
    | nil =>
      simp only [parseFilesAux] at hmain
      have : fds = [] := (Option.some.inj hmain).symm
      subst this
      intro fd hfd
      exact absurd hfd (List.not_mem_nil fd)
    | cons l ls =>
      simp only [parseFilesAux] at hmain
      split_ifs at hmain with h1
      · rcases heq : parseHunksAux
            ((skipStart "+++" (skipStart "---"
              (parseExtHeaders (parse_diff_header l).2 none ls).2.2)).length + 1)
            (skipStart "+++" (skipStart "---"
              (parseExtHeaders (parse_diff_header l).2 none ls).2.2)) with _ | ⟨hunks, r4⟩
        · rw [heq] at hmain
          simp at hmain
        · rw [heq] at hmain
          simp only [] at hmain
          rcases heq2 : parseFilesAux fuel r4 with _ | files
          · rw [heq2] at hmain
            simp at hmain
          · rw [heq2] at hmain
            simp only [] at hmain
            have hfds := (Option.some.inj hmain).symm
            subst hfds
            intro fd hfd
            rcases List.mem_cons.mp hfd with rfl | hfd
            · intro h hh
              exact parseHunksAux_hunks _ _ _ _ heq h hh
            · exact ih _ _ heq2 fd hfd
      · exact ih _ _ hmain

theorem parse_unified_diff_hunks (input : List Char) (fds : List FileDiff)
    (hmain : parse_unified_diff input = Except.ok fds) :
    ∀ fd ∈ fds, ∀ h ∈ fd.hunks, ∃ hdr body, h = (parse_hunk (hdr :: body)).1 := by
  rw [parse_unified_diff] at hmain
  rcases heq : parseFilesAux ((rustLines input).length + 1) (rustLines input) with _ | fs
  · rw [heq] at hmain
    simp at hmain
  · rw [heq] at hmain
    simp only [] at hmain
    have : fs = fds := Except.ok.inj hmain
    subst this
    exact parseFilesAux_hunks _ _ _ heq

theorem parseHunkLines_plus (o n : Nat) (l : List Char) (ls : List (List Char))
    (h : isPref ("+".data) l = true) :
    parseHunkLines o n (l :: ls) =
      ({ origin := LineOrigin.Addition, content := l.drop 1, old_line_no := none,
         new_line_no := some n, change_spans := [] } :: (parseHunkLines o (n + 1) ls).1,
       (parseHunkLines o (n + 1) ls).2) := by
  obtain ⟨t, rfl⟩ := isPref_single h
  have h1 : isPref ("@@".data) ('+' :: t) = false := isPref_head_ne (by decide)
  have h2 : isPref ("diff --git".data) ('+' :: t) = false := isPref_head_ne (by decide)
  have h3 : isPref ("+".data) ('+' :: t) = true := rfl
  simp [parseHunkLines, h1, h2, h3]

theorem parseHunkLines_minus (o n : Nat) (l : List Char) (ls : List (List Char))
    (h : isPref ("-".data) l = true) :
    parseHunkLines o n (l :: ls) =
      ({ origin := LineOrigin.Deletion, content := l.drop 1, old_line_no := some o,
         new_line_no := none, change_spans := [] } :: (parseHunkLines (o + 1) n ls).1,
       (parseHunkLines (o + 1) n ls).2) := by
  obtain ⟨t, rfl⟩ := isPref_single h
  have h1 : isPref ("@@".data) ('-' :: t) = false := isPref_head_ne (by decide)
  have h2 : isPref ("diff --git".data) ('-' :: t) = false := isPref_head_ne (by decide)
  have h3 : isPref ("+".data) ('-' :: t) = false := isPref_head_ne (by decide)
  have h4 : isPref ("-".data) ('-' :: t) = true := rfl
  simp [parseHunkLines, h1, h2, h3, h4]

theorem parseHunkLines_space (o n : Nat) (l : List Char) (ls : List (List Char))
    (h : isPref (" ".data) l = true) :
    parseHunkLines o n (l :: ls) =
      ({ origin := LineOrigin.Context, content := l.drop 1, old_line_no := some o,
         new_line_no := some n, change_spans := [] } :: (parseHunkLines (o + 1) (n + 1) ls).1,
       (parseHunkLines (o + 1) (n + 1) ls).2) := by
  obtain ⟨t, rfl⟩ := isPref_single h
  have h1 : isPref ("@@".data) (' ' :: t) = false := isPref_head_ne (by decide)
  have h2 : isPref ("diff --git".data) (' ' :: t) = false := isPref_head_ne (by decide)
  have h3 : isPref ("+".data) (' ' :: t) = false := isPref_head_ne (by decide)
  have h4 : isPref ("-".data) (' ' :: t) = false := isPref_head_ne (by decide)
  have h5 : isPref (" ".data) (' ' :: t) = true := rfl
  simp [parseHunkLines, h1, h2, h3, h4, h5]

theorem parseHunkLines_back (o n : Nat) (l : List Char) (ls : List (List Char))
    (h : isPref ("\\".data) l = true) :
    parseHunkLines o n (l :: ls) = parseHunkLines o n ls := by
  obtain ⟨t, rfl⟩ := isPref_single h
  have h1 : isPref ("@@".data) ('\\' :: t) = false := isPref_head_ne (by decide)
  have h2 : isPref ("diff --git".data) ('\\' :: t) = false := isPref_head_ne (by decide)
  have h3 : isPref ("+".data) ('\\' :: t) = false := isPref_head_ne (by decide)
  have h4 : isPref ("-".data) ('\\' :: t) = false := isPref_head_ne (by decide)
  have h5 : isPref (" ".data) ('\\' :: t) = false := isPref_head_ne (by decide)
  have h6 : isPref ("\\".data) ('\\' :: t) = true := rfl
  simp [parseHunkLines, h1, h2, h3, h4, h5, h6]

theorem parseHunkLines_other (o n : Nat) (l : List Char) (ls : List (List Char))
    (h1 : isPref ("@@".data) l = false) (h2 : isPref ("diff --git".data) l = false)
    (h3 : isPref ("+".data) l = false) (h4 : isPref ("-".data) l = false)
    (h5 : isPref (" ".data) l = false) (h6 : isPref ("\\".data) l = false) :
    parseHunkLines o n (l :: ls) =
      ({ origin := LineOrigin.Context, content := l, old_line_no := some o,
         new_line_no := some n, change_spans := [] } :: (parseHunkLines (o + 1) (n + 1) ls).1,
       (parseHunkLines (o + 1) (n + 1) ls).2) := by
  simp [parseHunkLines, h1, h2, h3, h4, h5, h6]

theorem parseHunkLines_split : ∀ (ls : List (List Char)) (o n : Nat),
    ∃ body, ls = body ++ (parseHunkLines o n ls).2 ∧
      ((∀ l ∈ body, goodBodyLine l) →
        (parseHunkLines o n ls).1.map reconLine =
          body.filter (fun l => !(isPref ("\\".data) l))) := by
  intro ls
  induction ls with
  | nil =>
    intro o n
    exact ⟨[], by simp [parseHunkLines], fun _ => by simp [parseHunkLines]⟩
  | cons l ls ih =>
    intro o n
    by_cases hat : isPref ("@@".data) l = true
    · refine ⟨[], ?_, fun _ => ?_⟩ <;> simp [parseHunkLines, hat]
    · by_cases hdg : isPref ("diff --git".data) l = true
      · refine ⟨[], ?_, fun _ => ?_⟩ <;> simp [parseHunkLines, hat, hdg]
      · by_cases hp : isPref ("+".data) l = true
        · obtain ⟨body, hsplit, hrt⟩ := ih o (n + 1)
          refine ⟨l :: body, ?_, ?_⟩
          · rw [parseHunkLines_plus o n l ls hp]
            simpa using hsplit
          · intro hgood
            rw [parseHunkLines_plus o n l ls hp]
            obtain ⟨t, rfl⟩ := isPref_single hp
            have hb : isPref ("\\".data) ('+' :: t) = false := isPref_head_ne (by decide)
            simp only [List.map_cons, List.filter_cons, hb, Bool.not_false, if_true]
            rw [hrt (fun m hm => hgood m (List.mem_cons_of_mem _ hm))]
            rfl
        · by_cases hm : isPref ("-".data) l = true
          · obtain ⟨body, hsplit, hrt⟩ := ih (o + 1) n
            refine ⟨l :: body, ?_, ?_⟩
            · rw [parseHunkLines_minus o n l ls hm]
              simpa using hsplit
            · intro hgood
              rw [parseHunkLines_minus o n l ls hm]
              obtain ⟨t, rfl⟩ := isPref_single hm
              have hb : isPref ("\\".data) ('-' :: t) = false := isPref_head_ne (by decide)
              simp only [List.map_cons, List.filter_cons, hb, Bool.not_false, if_true]
              rw [hrt (fun m hm2 => hgood m (List.mem_cons_of_mem _ hm2))]
              rfl
          · by_cases hsp : isPref (" ".data) l = true
            · obtain ⟨body, hsplit, hrt⟩ := ih (o + 1) (n + 1)
              refine ⟨l :: body, ?_, ?_⟩
              · rw [parseHunkLines_space o n l ls hsp]
                simpa using hsplit
              · intro hgood
                rw [parseHunkLines_space o n l ls hsp]
                obtain ⟨t, rfl⟩ := isPref_single hsp
                have hb : isPref ("\\".data) (' ' :: t) = false := isPref_head_ne (by decide)
                simp only [List.map_cons, List.filter_cons, hb, Bool.not_false, if_true]
                rw [hrt (fun m hm2 => hgood m (List.mem_cons_of_mem _ hm2))]
                rfl
            · by_cases hbk : isPref ("\\".data) l = true
              · obtain ⟨body, hsplit, hrt⟩ := ih o n
                refine ⟨l :: body, ?_, ?_⟩
                · rw [parseHunkLines_back o n l ls hbk]
                  simpa using hsplit
                · intro hgood
                  rw [parseHunkLines_back o n l ls hbk]
                  simp only [List.filter_cons, hbk, Bool.not_true, if_false]
                  exact hrt (fun m hm2 => hgood m (List.mem_cons_of_mem l hm2))
              · obtain ⟨body, hsplit, hrt⟩ := ih (o + 1) (n + 1)
                refine ⟨l :: body, ?_, ?_⟩
                · rw [parseHunkLines_other o n l ls (by simpa using hat) (by simpa using hdg)
                    (by simpa using hp) (by simpa using hm) (by simpa using hsp)
                    (by simpa using hbk)]
                  simpa using hsplit
                · intro hgood
                  exfalso
                  rcases hgood l (List.mem_cons_self l body) with hg | hg | hg | hg
                  · exact hp hg
                  · exact hm hg
                  · exact hsp hg
                  · exact hbk hg

/-- C2 (amended): every hunk in a `parse_unified_diff` result is produced by
`parse_hunk` from a header line and a body suffix; the hunk's counters are
seeded from the header's `old_start`/`new_start`; a `+` body line becomes an
Addition holding `new_line` (which is then incremented), a `-` line a
Deletion holding `old_line` (then incremented), and a `' '` line a Context
line holding both (both incremented).  In particular the body
`" ctx\n-old\n+new\n"` yields origins [Context, Deletion, Addition] where the
Context line has `old_line_no = old_start` and `new_line_no = new_start`, the
Deletion line has `old_line_no = old_start + 1`, and the Addition line has
`new_line_no = new_start + 1`. -/
theorem c2_hunk_body_classification :
    (∀ input fds, parse_unified_diff input = Except.ok fds →
      ∀ fd ∈ fds, ∀ h ∈ fd.hunks, ∃ hdr body, h = (parse_hunk (hdr :: body)).1) ∧
    (∀ hdr body, (parse_hunk (hdr :: body)).1.old_start = (parse_hunk_header hdr).1 ∧
      (parse_hunk (hdr :: body)).1.new_start = (parse_hunk_header hdr).2.2.1 ∧
      (parse_hunk (hdr :: body)).1.lines =
        (parseHunkLines (parse_hunk_header hdr).1 (parse_hunk_header hdr).2.2.1 body).1) ∧
    (∀ o n l ls, isPref ("+".data) l = true → parseHunkLines o n (l :: ls) =
      ({ origin := LineOrigin.Addition, content := l.drop 1, old_line_no := none,
         new_line_no := some n, change_spans := [] } :: (parseHunkLines o (n + 1) ls).1,
       (parseHunkLines o (n + 1) ls).2)) ∧
    (∀ o n l ls, isPref ("-".data) l = true → parseHunkLines o n (l :: ls) =
      ({ origin := LineOrigin.Deletion, content := l.drop 1, old_line_no := some o,
         new_line_no := none, change_spans := [] } :: (parseHunkLines (o + 1) n ls).1,
       (parseHunkLines (o + 1) n ls).2)) ∧
    (∀ o n l ls, isPref (" ".data) l = true → parseHunkLines o n (l :: ls) =
      ({ origin := LineOrigin.Context, content := l.drop 1, old_line_no := some o,
         new_line_no := some n, change_spans := [] } :: (parseHunkLines (o + 1) (n + 1) ls).1,
       (parseHunkLines (o + 1) (n + 1) ls).2)) ∧
    (∀ os ns, parseHunkLines os ns [(" ctx".data), ("-old".data), ("+new".data)] =
      ([{ origin := LineOrigin.Context, content := "ctx".data, old_line_no := some os,
          new_line_no := some ns, change_spans := [] },
        { origin := LineOrigin.Deletion, content := "old".data,
          old_line_no := some (os + 1), new_line_no := none, change_spans := [] },
        { origin := LineOrigin.Addition, content := "new".data, old_line_no := none,
          new_line_no := some (ns + 1), change_spans := [] }], [])) :=
  ⟨parse_unified_diff_hunks, fun _ _ => ⟨rfl, rfl, rfl⟩, parseHunkLines_plus,
    parseHunkLines_minus, parseHunkLines_space, fun _ _ => rfl⟩

/-- C2 witness: the three-line body instance at the header starts 1 and 5,
and the `+` classification rule at a concrete line. -/
theorem c2_witness :
    parseHunkLines 1 5 [(" ctx".data), ("-old".data), ("+new".data)] =
      ([{ origin := LineOrigin.Context, content := "ctx".data, old_line_no := some 1,
          new_line_no := some 5, change_spans := [] },
        { origin := LineOrigin.Deletion, content := "old".data, old_line_no := some 2,
          new_line_no := none, change_spans := [] },
        { origin := LineOrigin.Addition, content := "new".data, old_line_no := none,
          new_line_no := some 6, change_spans := [] }], []) ∧
    parseHunkLines 3 7 [("+x".data)] =
      ({ origin := LineOrigin.Addition, content := "x".data, old_line_no := none,
         new_line_no := some 7, change_spans := [] } :: (parseHunkLines 3 8 []).1,
       (parseHunkLines 3 8 []).2) :=
  ⟨c2_hunk_body_classification.2.2.2.2.2 1 5,
    c2_hunk_body_classification.2.2.1 3 7 ("+x".data) [] rfl⟩

/-- C2 counterexample: with header `@@ -1,3 +5,3 @@` and body
`" ctx\n-old\n+new\n"`, the Context line's `new_line_no` is `new_start = 5`,
not `old_start = 1` as the claim's instance asserts. -/
theorem c2_counterexample :
    (firstFileHunks (parse_unified_diff c2Input)).map
        (fun h => (h.old_start, h.new_start,
          h.lines.map fun l => (l.origin, l.old_line_no, l.new_line_no))) =
      [(1, 5, [(LineOrigin.Context, some 1, some 5), (LineOrigin.Deletion, some 2, none),
               (LineOrigin.Addition, none, some 6)])] ∧
    some (5 : Nat) ≠ some (1 : Nat) :=
  ⟨rfl, by decide⟩

/-- C6 (amended): every hunk of a parse result comes from `parse_hunk` on a
header and body suffix, and for a hunk whose consumed body lines all begin
with `+`, `-`, `' '` or `\\`, concatenating each parsed line's origin prefix
with its content reproduces the consumed body modulo the skipped `\\` marker
lines.  (A body line with no recognized prefix is stored as a Context line
with the whole line as content, so its reconstruction gains a leading
space — see the counterexample.) -/
theorem c6_round_trip_modulo_markers :
    (∀ input fds, parse_unified_diff input = Except.ok fds →
      ∀ fd ∈ fds, ∀ h ∈ fd.hunks, ∃ hdr body, h = (parse_hunk (hdr :: body)).1) ∧
    (∀ hdr ls, ∃ body, ls = body ++ (parse_hunk (hdr :: ls)).2 ∧
      ((∀ l ∈ body, goodBodyLine l) →
        (parse_hunk (hdr :: ls)).1.lines.map reconLine =
          body.filter (fun l => !(isPref ("\\".data) l)))) := by
  refine ⟨parse_unified_diff_hunks, fun hdr ls => ?_⟩
  obtain ⟨body, h1, h2⟩ := parseHunkLines_split ls (parse_hunk_header hdr).1
    (parse_hunk_header hdr).2.2.1
  exact ⟨body, h1, h2⟩

/-- C6 witness: round trip on a concrete hunk whose body lines all carry
recognized prefixes plus a skipped `\\` marker line. -/
theorem c6_witness :
    (parse_hunk (("@@ -1,2 +1,2 @@".data) ::
        [(" a".data), ("-b".data), ("+c".data), ("\\ No newline at end of file".data)])).1.lines.map
        reconLine =
      [(" a".data), ("-b".data), ("+c".data)] := by
  obtain ⟨body, hsplit, hrt⟩ := c6_round_trip_modulo_markers.2 ("@@ -1,2 +1,2 @@".data)
    [(" a".data), ("-b".data), ("+c".data), ("\\ No newline at end of file".data)]
  have hrest : (parse_hunk (("@@ -1,2 +1,2 @@".data) ::
      [(" a".data), ("-b".data), ("+c".data),
       ("\\ No newline at end of file".data)])).2 = [] := rfl
  rw [hrest, List.append_nil] at hsplit
  rw [← hsplit] at hrt
  rw [hrt (by
    intro m hm
    fin_cases hm <;> first
      | exact Or.inl rfl
      | exact Or.inr (Or.inl rfl)
      | exact Or.inr (Or.inr (Or.inl rfl))
      | exact Or.inr (Or.inr (Or.inr rfl)))]
  rfl

/-- C6 counterexample: the hunk body consisting of the single unprefixed line
`"X"` parses to a Context line with content `"X"`, whose reconstruction is
`" X"`, not the original body line `"X"`. -/
theorem c6_counterexample :
    rustLines c6Input = [("diff --git a/f b/f".data), ("@@ -1 +1 @@".data), ("X".data)] ∧
    (firstHunkLines (parse_unified_diff c6Input)).map reconLine = [(" X".data)] ∧
    (firstHunkLines (parse_unified_diff c6Input)).map reconLine ≠ [("X".data)] :=
  ⟨rfl, rfl, by decide⟩

end DdMerge
